import Mathlib

/-!
Verification development for the `game_strategies` repository
(tic-tac-toe rule engine + Monte Carlo Tree Search core).

The Rust sources are shallowly embedded:
* `src/tic_tac_toe/src/board.rs` and `game.rs` become pure Lean functions;
  the `&mut self` methods are modelled as functions returning the result
  together with the post-call value of `self`.
* `src/mcts/src/core.rs`: the `Rc<RefCell<MCTN>>` tree becomes an inductive
  tree; climbing parent pointers becomes walking a path (list of child
  indices) from the root.  `f64` statistics `wins`/`visits` are modelled as
  `ℚ` (every value the code produces is a small multiple of 1/2, on which
  the IEEE additions `+= 1.0` / `+= 0.5` are exact).  Panics and `unwrap`
  become `Option`/`Except`.
-/

deriving instance DecidableEq for Except

namespace TicTacToe

/-- From `board.rs`: `enum Cell { X, O, Empty }`. -/
inductive Cell where
  | X
  | O
  | Empty
deriving DecidableEq

/-- Mark-failure reasons.  `game.rs` and the CLI match on
`board::BoardMarkError::{OutOfBound, NonEmptyCell}`; `board.rs` as checked in
reports the same two conditions as static strings
("Index out-of-bound." / "Cannot mark a non-empty cell."). -/
inductive BoardMarkError where
  | OutOfBound
  | NonEmptyCell
deriving DecidableEq

/-- From `board.rs`: `struct Board { cells: [[Cell; 3]; 3] }`.
The fixed-size array is modelled as a list of rows; out-of-bounds indexing
is handled exactly where the source handles it (`get`/`get_mut`). -/
structure Board where
  cells : List (List Cell)
deriving DecidableEq

/-- Rust `Board::new`: all cells empty. -/
def Board.new : Board :=
  ⟨List.replicate 3 (List.replicate 3 Cell.Empty)⟩

/-- Rust `Board::mark(&mut self, mark, row_index, col_index) -> Result<(), _>`.
Returns the `Result` together with the post-call board: the source mutates
the cell only in the `Cell::Empty` branch, so on error the board is
returned unchanged. -/
def Board.mark (b : Board) (mark : Cell) (row_index col_index : Nat) :
    Except BoardMarkError Unit × Board :=
  match b.cells[row_index]? with
  | none => (Except.error BoardMarkError.OutOfBound, b)
  | some row =>
    match row[col_index]? with
    | none => (Except.error BoardMarkError.OutOfBound, b)
    | some cell =>
      match cell with
      | Cell.Empty =>
          (Except.ok (), ⟨b.cells.set row_index (row.set col_index mark)⟩)
      | _ => (Except.error BoardMarkError.NonEmptyCell, b)

/-- Rust `Board::get_cell`: `None` models the `Err` on out-of-bounds access. -/
def Board.get_cell (b : Board) (row_index col_index : Nat) : Option Cell :=
  (b.cells[row_index]?).bind fun row => row[col_index]?

/-- From `game.rs`: `enum GameTurn { TurnX, TurnO }`. -/
inductive GameTurn where
  | TurnX
  | TurnO
deriving DecidableEq

/-- From `game.rs`: `enum GameState { Ongoing, XWon, OWon, Tie }`. -/
inductive GameState where
  | Ongoing
  | XWon
  | OWon
  | Tie
deriving DecidableEq

/-- From `game.rs`: `enum GamePlayError { MarkError(BoardMarkError), GameIsOver }`. -/
inductive GamePlayError where
  | MarkError (e : BoardMarkError)
  | GameIsOver
deriving DecidableEq

/-- From `game.rs`: `struct Game { board, turn, state }`. -/
structure Game where
  board : Board
  turn : GameTurn
  state : GameState
deriving DecidableEq

/-- Rust `Game::new`. -/
def Game.new : Game :=
  ⟨Board.new, GameTurn.TurnX, GameState.Ongoing⟩

/-- Rust `Game::get_state`. -/
def Game.get_state (g : Game) : GameState := g.state

/-- Rust `Game::get_turn`. -/
def Game.get_turn (g : Game) : GameTurn := g.turn

/-- Rust `Game::is_over`. -/
def Game.is_over (g : Game) : Bool :=
  match g.state with
  | GameState.Ongoing => false
  | _ => true

/-- Rust `Game::check_win`: counts X and O marks along a 3-cell path.  The source
`unwrap`s `get_cell`; all eight win paths are in bounds, so the `none`
branch (folded into the catch-all arm below, like `Cell::Empty`) is dead. -/
def Game.check_win (g : Game) (path : List (Nat × Nat)) : Nat × Nat :=
  path.foldl
    (fun acc coord =>
      match g.board.get_cell coord.1 coord.2 with
      | some Cell.X => (acc.1 + 1, acc.2)
      | some Cell.O => (acc.1, acc.2 + 1)
      | _ => acc)
    (0, 0)

/-- The eight win paths of `Game::update_state`, in source order. -/
def winPaths : List (List (Nat × Nat)) :=
  [ [(0, 0), (0, 1), (0, 2)],
    [(1, 0), (1, 1), (1, 2)],
    [(2, 0), (2, 1), (2, 2)],
    [(0, 0), (1, 0), (2, 0)],
    [(0, 1), (1, 1), (2, 1)],
    [(0, 2), (1, 2), (2, 2)],
    [(0, 0), (1, 1), (2, 2)],
    [(0, 2), (1, 1), (2, 0)] ]

/-- The path loop of `Game::update_state`, with the source's early returns
turned into recursion; `found_empty` is the loop-carried flag. -/
def Game.scanPaths (g : Game) :
    List (List (Nat × Nat)) → Bool → Game
  | [], found_empty =>
      if found_empty then g else { g with state := GameState.Tie }
  | path :: rest, found_empty =>
      let streaks := g.check_win path
      if streaks.1 = 3 then { g with state := GameState.XWon }
      else if streaks.2 = 3 then { g with state := GameState.OWon }
      else if streaks.1 + streaks.2 < 3 then g.scanPaths rest true
      else g.scanPaths rest found_empty

/-- Rust `Game::update_state`.  The source panics when called on a terminated
game; every caller (only `Game::play`) guarantees `Ongoing`, so that dead
branch is modelled as the identity. -/
def Game.update_state (g : Game) : Game :=
  if g.is_over then g else g.scanPaths winPaths false

/-- Rust `Game::play(&mut self, row, col) -> Result<(), GamePlayError>`, modelled
as `(result, post-call self)`.  Mirrors the source order of effects:
mark the board, then `update_state`, then flip the turn. -/
def Game.play (g : Game) (row_index col_index : Nat) :
    Except GamePlayError Unit × Game :=
  match g.state with
  | GameState.Ongoing =>
    match g.turn with
    | GameTurn.TurnX =>
      match Board.mark g.board Cell.X row_index col_index with
      | (Except.error e, b) =>
          (Except.error (GamePlayError.MarkError e), { g with board := b })
      | (Except.ok _, b) =>
          let g1 := Game.update_state { g with board := b }
          (Except.ok (), { g1 with turn := GameTurn.TurnO })
    | GameTurn.TurnO =>
      match Board.mark g.board Cell.O row_index col_index with
      | (Except.error e, b) =>
          (Except.error (GamePlayError.MarkError e), { g with board := b })
      | (Except.ok _, b) =>
          let g1 := Game.update_state { g with board := b }
          (Except.ok (), { g1 with turn := GameTurn.TurnX })
  | _ => (Except.error GamePlayError.GameIsOver, g)

/-- Rust `Game::get_played`: play on a clone, return the clone on success. -/
def Game.get_played (g : Game) (row_index col_index : Nat) :
    Except GamePlayError Game :=
  match Game.play g row_index col_index with
  | (Except.ok _, g1) => Except.ok g1
  | (Except.error e, _) => Except.error e

/-- Rust `Game::get_possible_plays`: empty when the game is over, otherwise the
empty cells in row-major order.  The source `unwrap`s `get_cell`; the
candidates range over `0..=2` so the access is in bounds. -/
def Game.get_possible_plays (g : Game) : List (Nat × Nat) :=
  if g.is_over then []
  else
    (((List.range 3).flatMap fun row_index =>
        (List.range 3).map fun col_index => (row_index, col_index)).filter
      fun rc =>
        match g.board.get_cell rc.1 rc.2 with
        | some Cell.Empty => true
        | _ => false)

end TicTacToe

namespace MCTS

open TicTacToe

/-- From `core.rs`: `struct MCTN { game, parent, children, move_from_parent, wins, visits }`.
The `Rc<RefCell<_>>` graph is modelled as an inductive tree; the weak
`parent` back-pointer is implicit (a node is addressed by its path of child
indices from the root, and backpropagation walks that path).  The `f64`
statistics are modelled as `ℚ`: every value the code produces is a small
multiple of 1/2, on which the IEEE `f64` additions are exact. -/
inductive MCTN where
  | mk (game : Game) (move_from_parent : Option (Nat × Nat)) (wins : ℚ)
      (visits : ℚ) (children : List MCTN)

def MCTN.game : MCTN → Game
  | .mk g _ _ _ _ => g

def MCTN.move_from_parent : MCTN → Option (Nat × Nat)
  | .mk _ m _ _ _ => m

def MCTN.wins : MCTN → ℚ
  | .mk _ _ w _ _ => w

def MCTN.visits : MCTN → ℚ
  | .mk _ _ _ v _ => v

def MCTN.children : MCTN → List MCTN
  | .mk _ _ _ _ cs => cs

/-- Replace the children list, keeping all other fields. -/
def MCTN.setChildren : MCTN → List MCTN → MCTN
  | .mk g m w v _, cs => .mk g m w v cs

/-- Rust `MCTN::new`: fresh root with zero statistics. -/
def MCTN.new (game_state : Game) : MCTN :=
  MCTN.mk game_state none 0 0 []

/-- Node addressed by a path of child indices (`none` = no such node). -/
def MCTN.getNode? : MCTN → List Nat → Option MCTN
  | t, [] => some t
  | t, i :: p =>
    match t.children[i]? with
    | some c => c.getNode? p
    | none => none

/-- Apply a fallible node transformation at the end of a path, rebuilding
the tree along the way (`none` propagates a panic or a bad path). -/
def MCTN.modifyAt : MCTN → List Nat → (MCTN → Option MCTN) → Option MCTN
  | t, [], f => f t
  | t, i :: p, f =>
    (t.children[i]?).bind fun c =>
      (c.modifyAt p f).map fun c2 => t.setChildren (t.children.set i c2)

/-- Rust `MCTN::play`: plays `(row, col)` from the parent's game and pushes the
resulting state as a new child with zero statistics.  The source `unwrap`s
`get_played`; `none` models that panic. -/
def MCTN.play (parent : MCTN) (play_row_index play_col_index : Nat) :
    Option MCTN :=
  match parent.game.get_played play_row_index play_col_index with
  | Except.ok g2 =>
      some (parent.setChildren (parent.children ++
        [MCTN.mk g2 (some (play_row_index, play_col_index)) 0 0 []]))
  | Except.error _ => none

/-- Rust `MCTN::expand_node`: panics (here `none`) on a node that already has
children, otherwise adds one child per possible play, in order. -/
def MCTN.expand_node (node : MCTN) : Option MCTN :=
  if node.children.length > 0 then none
  else
    node.game.get_possible_plays.foldlM
      (fun acc rc => MCTN.play acc rc.1 rc.2) node

/-- The win credit of `MCTN::backpropagate`'s match table: a node whose
pending mover is NOT the winner gains 1.0, the winner's own node gains 0,
a tie gains 0.5 either way.  The `Ongoing` row is dead code: `backpropagate`
rejects `Ongoing` before updating any node. -/
def creditFor (game_result : GameState) (node_player : GameTurn) : ℚ :=
  match game_result, node_player with
  | GameState.XWon, GameTurn.TurnX => 0
  | GameState.XWon, GameTurn.TurnO => 1
  | GameState.OWon, GameTurn.TurnX => 1
  | GameState.OWon, GameTurn.TurnO => 0
  | GameState.Tie, _ => 1 / 2
  | GameState.Ongoing, _ => 0

/-- One node's statistics update in `MCTN::backpropagate`:
`visits += 1.0` and `wins += creditFor result (game.get_turn)`. -/
def MCTN.statUpd (game_result : GameState) : MCTN → MCTN
  | .mk g m w v cs =>
      .mk g m (w + creditFor game_result g.get_turn) (v + 1) cs

/-- The recursive climb of `MCTN::backpropagate`: every node on the path
from the root (inclusive) down to the addressed node (inclusive) gets its
statistics updated; the source climbs leaf-to-root via parent pointers,
which touches exactly the same set of nodes. -/
def MCTN.backpropGo : MCTN → List Nat → GameState → Option MCTN
  | t, [], r => some (t.statUpd r)
  | t, i :: p, r =>
    (t.children[i]?).bind fun c =>
      (c.backpropGo p r).map fun c2 =>
        (t.statUpd r).setChildren (t.children.set i c2)

/-- Rust `MCTN::backpropagate(node, game_result)` on the node addressed by `p`.
The source panics ("Cannot back propagate result other than XWon, OWon,
Tie") on `Ongoing` at the very first node, before mutating anything; since
the same `game_result` is passed all the way up, this equals one upfront
check. -/
def MCTN.backpropagate (t : MCTN) (p : List Nat) (game_result : GameState) :
    Option MCTN :=
  match game_result with
  | GameState.Ongoing => none
  | _ => t.backpropGo p game_result

/-- The `while !cloned_game.is_over()` loop of `MCTN::simulate_playout`,
with the random `gen_range` draw replaced by an oracle `pick` consulted at
step `k` and reduced modulo the number of possible plays.  `none` models
the two panics (indexing an empty play list, `unwrap` on `play`) as well as
fuel exhaustion; fuel 10 is proved sufficient below. -/
def simLoop : Nat → Game → (Nat → Nat) → Nat → Option GameState
  | 0, _, _, _ => none
  | fuel + 1, g, pick, k =>
    if g.is_over then some g.get_state
    else
      let possible_plays := g.get_possible_plays
      match possible_plays[pick k % possible_plays.length]? with
      | none => none
      | some rc =>
        match Game.play g rc.1 rc.2 with
        | (Except.ok _, g2) => simLoop fuel g2 pick (k + 1)
        | (Except.error _, _) => none

/-- Rust `MCTN::simulate_playout`: random rollout on a clone of the node's game
(the tree is untouched by construction in this pure embedding). -/
def MCTN.simulate_playout (node : MCTN) (pick : Nat → Nat) :
    Option GameState :=
  simLoop 10 node.game pick 0

/-- Rust `MCTN::uct`: `win_rate + sqrt(2) * sqrt(ln(parent_visits)/child_visits)`.
The `f64` formula is modelled over `ℝ`, where division by zero yields `0`
while IEEE yields `NaN`/`±∞`; at the zero-visit, zero-win configurations
considered below both semantics make the strict comparison against the
running maximum fail, which is what matters for `select_node`. -/
noncomputable def MCTN.uct (parent_visits child_wins child_visits : ℚ) : ℝ :=
  (child_wins : ℝ) / (child_visits : ℝ) +
    Real.sqrt 2 * Real.sqrt (Real.log (parent_visits : ℝ) / (child_visits : ℝ))

/-- The child-scanning loop of `MCTN::select_node`: walking the children
list (current index `i`), carrying the running maximum (initially `0.0`)
and the best index so far (initially `none`); a child is taken only when
its UCT score is strictly greater than the running maximum. -/
inductive SelChild (parent_visits : ℚ) :
    List MCTN → Nat → ℝ → Option Nat → Option Nat → Prop
  | nil (i : Nat) (max_uct : ℝ) (acc : Option Nat) :
      SelChild parent_visits [] i max_uct acc acc
  | gt {c : MCTN} {rest : List MCTN} {i : Nat} {max_uct : ℝ}
      {acc out : Option Nat}
      (h : MCTN.uct parent_visits c.wins c.visits > max_uct)
      (h2 : SelChild parent_visits rest (i + 1)
        (MCTN.uct parent_visits c.wins c.visits) (some i) out) :
      SelChild parent_visits (c :: rest) i max_uct acc out
  | le {c : MCTN} {rest : List MCTN} {i : Nat} {max_uct : ℝ}
      {acc out : Option Nat}
      (h : ¬ MCTN.uct parent_visits c.wins c.visits > max_uct)
      (h2 : SelChild parent_visits rest (i + 1) max_uct acc out) :
      SelChild parent_visits (c :: rest) i max_uct acc out

/-- Rust `MCTN::select_node` as a relation between the search root and the path
of the returned node: recurse into the loop's winning child while there is
one, stop (returning the current node) when the loop found none. -/
inductive SelPath : MCTN → List Nat → Prop
  | stop {t : MCTN}
      (h : SelChild t.visits t.children 0 0 none none) : SelPath t []
  | step {t : MCTN} {i : Nat} {c : MCTN} {p : List Nat}
      (h : SelChild t.visits t.children 0 0 none (some i))
      (hc : t.children[i]? = some c)
      (hp : SelPath c p) : SelPath t (i :: p)

/-- The per-child loop of `MCTN::mcts_update`: for each child index `j` of
the expanded leaf at path `p`, simulate a playout from that child and
backpropagate its result from the child to the root. -/
def MCTN.simBackprops (pick : Nat → Nat → Nat) (p : List Nat) :
    MCTN → List Nat → Option MCTN
  | t, [] => some t
  | t, j :: js =>
    (t.getNode? (p ++ [j])).bind fun child =>
      (child.simulate_playout (pick j)).bind fun r =>
        (t.backpropagate (p ++ [j]) r).bind fun t2 =>
          MCTN.simBackprops pick p t2 js

/-- Rust `MCTN::mcts_update` given the path `p` of the selected leaf: expand the
leaf in place, then simulate+backpropagate once per (new) child.  The
oracle `pick j` drives child `j`'s rollout. -/
def MCTN.mcts_update_at (t : MCTN) (p : List Nat) (pick : Nat → Nat → Nat) :
    Option MCTN :=
  (t.modifyAt p MCTN.expand_node).bind fun t1 =>
    (t1.getNode? p).bind fun leaf1 =>
      MCTN.simBackprops pick p t1 (List.range leaf1.children.length)

/-- Rust `MCTN::mcts_update(root)`: one full iteration — select a leaf by the
UCT policy, then expand / simulate / backpropagate at its path. -/
def MCTN.mcts_update (t : MCTN) (pick : Nat → Nat → Nat) (t2 : MCTN) : Prop :=
  ∃ p, SelPath t p ∧ t.mcts_update_at p pick = some t2

/-- Modelled from the spec: `recommend_move(root)` (spec §4.5) is not
present under `src/` — the mcts crate defines `mcts_update` but no
recommendation query yet.  Following the spec's words: among the root's
children, return the move associated with the child of highest `visits`
(the first such child, the spec fixing no tie-break). -/
def MCTN.recommend_move (t : MCTN) : Option (Nat × Nat) :=
  (t.children.foldl
    (fun acc c =>
      match acc with
      | none => some c
      | some b => if b.visits < c.visits then some c else acc)
    none).bind MCTN.move_from_parent

/-- One mutation of a search tree: `MCTN::play`, `MCTN::expand_node` or
`MCTN::backpropagate`, applied at some node (addressed by a path). -/
def StepRel (t t2 : MCTN) : Prop :=
  (∃ p r c, t.modifyAt p (fun m => m.play r c) = some t2) ∨
  (∃ p, t.modifyAt p MCTN.expand_node = some t2) ∨
  (∃ p r, t.backpropagate p r = some t2)

/-- Trees reachable from a fresh `MCTN::new` root by the tree operations. -/
def Reachable (t : MCTN) : Prop :=
  ∃ g, Relation.ReflTransGen StepRel (MCTN.new g) t

/-- An ongoing game always has a possible play.  This holds for every game
the engine can reach (`update_state` declares a full board `Tie`), and is
what rules out the `gen_range(0..0)` panic in `simulate_playout`. -/
def GameInv (g : Game) : Prop :=
  g.state = GameState.Ongoing → g.get_possible_plays ≠ []

end MCTS

namespace MCTS

open TicTacToe

/-- Here `q` lies on the root-to-node chain of the node addressed by `p`
(i.e. `q` is an initial segment of `p`): exactly the positions
`MCTN::backpropagate` climbs through. -/
def liesOn : List Nat → List Nat → Bool
  | [], _ => true
  | _ :: _, [] => false
  | i :: q, j :: p => i == j && liesOn q p

lemma liesOn_nil (p : List Nat) : liesOn [] p = true := by
  cases p <;> rfl

lemma liesOn_cons (i j : Nat) (q p : List Nat) :
    liesOn (i :: q) (j :: p) = ((i == j) && liesOn q p) := rfl

lemma liesOn_refl : ∀ p : List Nat, liesOn p p = true
  | [] => rfl
  | i :: p => by simp [liesOn_cons, liesOn_refl p]

lemma liesOn_snoc_same : ∀ (p : List Nat) (j j2 : Nat),
    liesOn (p ++ [j]) (p ++ [j2]) = (j == j2)
  | [], j, j2 => by simp [liesOn]
  | i :: p, j, j2 => by simp [liesOn_cons, liesOn_snoc_same p]

lemma MCTN.getNode?_append : ∀ (p q : List Nat) (t : MCTN),
    t.getNode? (p ++ q) = (t.getNode? p).bind (fun m => m.getNode? q)
  | [], q, t => by simp [MCTN.getNode?]
  | i :: p, q, t => by
    cases h : t.children[i]? with
    | none => simp [MCTN.getNode?, h]
    | some c => simp [MCTN.getNode?, h, MCTN.getNode?_append p q c]

lemma MCTN.game_setChildren (t : MCTN) (cs : List MCTN) :
    (t.setChildren cs).game = t.game := by
  cases t; rfl

lemma MCTN.wins_setChildren (t : MCTN) (cs : List MCTN) :
    (t.setChildren cs).wins = t.wins := by
  cases t; rfl

lemma MCTN.visits_setChildren (t : MCTN) (cs : List MCTN) :
    (t.setChildren cs).visits = t.visits := by
  cases t; rfl

lemma MCTN.mfp_setChildren (t : MCTN) (cs : List MCTN) :
    (t.setChildren cs).move_from_parent = t.move_from_parent := by
  cases t; rfl

lemma MCTN.children_setChildren (t : MCTN) (cs : List MCTN) :
    (t.setChildren cs).children = cs := by
  cases t; rfl

lemma MCTN.game_statUpd (r : GameState) (t : MCTN) :
    (t.statUpd r).game = t.game := by
  cases t; rfl

lemma MCTN.children_statUpd (r : GameState) (t : MCTN) :
    (t.statUpd r).children = t.children := by
  cases t; rfl

lemma MCTN.wins_statUpd (r : GameState) (t : MCTN) :
    (t.statUpd r).wins = t.wins + creditFor r t.game.get_turn := by
  cases t; rfl

lemma MCTN.visits_statUpd (r : GameState) (t : MCTN) :
    (t.statUpd r).visits = t.visits + 1 := by
  cases t; rfl

lemma MCTN.mfp_statUpd (r : GameState) (t : MCTN) :
    (t.statUpd r).move_from_parent = t.move_from_parent := by
  cases t; rfl

/-- What one `backpropagate` climb does to every node of the tree:
nodes on the root-to-target chain gain one visit and `creditFor` wins,
all other nodes are untouched; games, moves and child counts are
preserved everywhere. -/
lemma MCTN.backpropGo_spec (r : GameState) :
    ∀ (p : List Nat) (t t2 : MCTN), MCTN.backpropGo t p r = some t2 →
      ∀ q m, t.getNode? q = some m →
        ∃ m2, t2.getNode? q = some m2 ∧
          m2.game = m.game ∧
          m2.move_from_parent = m.move_from_parent ∧
          m2.children.length = m.children.length ∧
          m2.visits = m.visits + (if liesOn q p then 1 else 0) ∧
          m2.wins = m.wins +
            (if liesOn q p then creditFor r m.game.get_turn else 0)
  | [], t, t2, h, q, m, hq => by
    simp only [MCTN.backpropGo, Option.some.injEq] at h
    subst h
    cases q with
    | nil =>
      simp only [MCTN.getNode?, Option.some.injEq] at hq
      subst hq
      refine ⟨t.statUpd r, rfl, ?_⟩
      simp [MCTN.game_statUpd, MCTN.mfp_statUpd, MCTN.children_statUpd,
        MCTN.visits_statUpd, MCTN.wins_statUpd, liesOn_nil]
    | cons j q' =>
      refine ⟨m, ?_, rfl, rfl, rfl, by simp [liesOn], by simp [liesOn]⟩
      simpa [MCTN.getNode?, MCTN.children_statUpd] using hq
  | i :: p, t, t2, h, q, m, hq => by
    simp only [MCTN.backpropGo] at h
    obtain ⟨c, hc, h⟩ := Option.bind_eq_some.mp h
    obtain ⟨c2, hrec, h⟩ := Option.map_eq_some'.mp h
    subst h
    cases q with
        | nil =>
          simp only [MCTN.getNode?, Option.some.injEq] at hq
          subst hq
          refine ⟨_, rfl, ?_⟩
          simp [MCTN.game_setChildren, MCTN.mfp_setChildren,
            MCTN.children_setChildren, MCTN.wins_setChildren,
            MCTN.visits_setChildren, MCTN.game_statUpd, MCTN.mfp_statUpd,
            MCTN.wins_statUpd, MCTN.visits_statUpd, MCTN.children_statUpd,
            List.length_set, liesOn_nil]
        | cons j q' =>
          simp only [MCTN.getNode?] at hq
          by_cases hij : i = j
          · subst hij
            rw [hc] at hq
            have := MCTN.backpropGo_spec r p c c2 hrec q' m hq
            obtain ⟨m2, hm2, hg, hmv, hlen, hv, hw⟩ := this
            refine ⟨m2, ?_, hg, hmv, hlen, ?_, ?_⟩
            · have hlt : i < t.children.length := by
                by_contra hge
                rw [List.getElem?_eq_none (Nat.le_of_not_lt hge)] at hc
                exact Option.noConfusion hc
              simp only [MCTN.getNode?, MCTN.children_setChildren,
                MCTN.children_statUpd]
              rw [List.getElem?_set_eq_of_lt _ hlt]
              exact hm2
            · rw [hv, liesOn_cons]; simp
            · rw [hw, liesOn_cons]; simp
          · have hji : (j == i) = false := beq_eq_false_iff_ne.mpr (Ne.symm hij)
            refine ⟨m, ?_, rfl, rfl, rfl, ?_, ?_⟩
            · simp only [MCTN.getNode?, MCTN.children_setChildren,
                MCTN.children_statUpd]
              rw [List.getElem?_set_ne hij]
              cases hcj : t.children[j]? with
              | none => rw [hcj] at hq; exact absurd hq (by simp)
              | some d => rw [hcj] at hq; exact hq
            · rw [liesOn_cons, hji]
              simp
            · rw [liesOn_cons, hji]
              simp

/-- Here `backpropagate` creates no new node positions. -/
lemma MCTN.backpropGo_domain (r : GameState) :
    ∀ (p : List Nat) (t t2 : MCTN), MCTN.backpropGo t p r = some t2 →
      ∀ q, t.getNode? q = none → t2.getNode? q = none
  | [], t, t2, h, q, hq => by
    simp only [MCTN.backpropGo, Option.some.injEq] at h
    subst h
    cases q with
    | nil => simp [MCTN.getNode?] at hq
    | cons j q' => simpa [MCTN.getNode?, MCTN.children_statUpd] using hq
  | i :: p, t, t2, h, q, hq => by
    simp only [MCTN.backpropGo] at h
    obtain ⟨c, hc, h⟩ := Option.bind_eq_some.mp h
    obtain ⟨c2, hrec, h⟩ := Option.map_eq_some'.mp h
    subst h
    cases q with
        | nil => simp [MCTN.getNode?] at hq
        | cons j q' =>
          simp only [MCTN.getNode?] at hq ⊢
          simp only [MCTN.children_setChildren, MCTN.children_statUpd]
          by_cases hij : i = j
          · subst hij
            rw [hc] at hq
            have hlt : i < t.children.length := by
              by_contra hge
              rw [List.getElem?_eq_none (Nat.le_of_not_lt hge)] at hc
              exact Option.noConfusion hc
            rw [List.getElem?_set_eq_of_lt _ hlt]
            exact MCTN.backpropGo_domain r p c c2 hrec q' hq
          · rw [List.getElem?_set_ne hij]
            cases hcj : t.children[j]? with
            | none => rfl
            | some d => rw [hcj] at hq; exact hq

lemma creditFor_nonneg (r : GameState) (pl : GameTurn) : 0 ≤ creditFor r pl := by
  cases r <;> cases pl <;> norm_num [creditFor]

lemma creditFor_le_one (r : GameState) (pl : GameTurn) : creditFor r pl ≤ 1 := by
  cases r <;> cases pl <;> norm_num [creditFor]

/-- Here `creditFor` agrees with the specification's phrasing: a full point
exactly when the winner is not on move, half a point on a tie. -/
lemma creditFor_eq_spec (r : GameState) (pl : GameTurn) (hr : r ≠ GameState.Ongoing) :
    creditFor r pl =
      (if (r = GameState.XWon ∧ pl = GameTurn.TurnO) ∨
          (r = GameState.OWon ∧ pl = GameTurn.TurnX) then (1 : ℚ)
       else if r = GameState.Tie then 1 / 2 else 0) := by
  cases r <;> cases pl <;> simp_all [creditFor]
end MCTS

namespace TicTacToe

/-- Rust `Board::mark` leaves the board untouched when it returns an error
(the cell is written only in the `Cell::Empty` branch). -/
lemma Board.mark_error_snd (b : Board) (mk : Cell) (r c : Nat)
    (e : BoardMarkError) (b2 : Board)
    (h : Board.mark b mk r c = (Except.error e, b2)) : b2 = b := by
  cases h1 : b.cells[r]? with
  | none =>
    simp [Board.mark, h1] at h
    exact h.2.symm
  | some row =>
    cases h2 : row[c]? with
    | none =>
      simp [Board.mark, h1, h2] at h
      exact h.2.symm
    | some cell =>
      cases cell with
      | Empty => simp [Board.mark, h1, h2] at h
      | X => simp [Board.mark, h1, h2] at h; exact h.2.symm
      | O => simp [Board.mark, h1, h2] at h; exact h.2.symm

/-- C10: `Game::play` is atomic on error — when it returns an `Err`
(out-of-bounds, non-empty cell, or game over) the post-call game equals the
pre-call game: board, turn and state are all unchanged. -/
theorem play_error_atomic (g : Game) (row col : Nat) (e : GamePlayError)
    (h : (Game.play g row col).1 = Except.error e) :
    (Game.play g row col).2 = g := by
  obtain ⟨b, turn, st⟩ := g
  cases st with
  | Ongoing =>
    cases turn with
    | TurnX =>
      cases hm : Board.mark b Cell.X row col with
      | mk res b2 =>
        cases res with
        | error e2 =>
          have hb : b2 = b := Board.mark_error_snd b Cell.X row col e2 b2 hm
          subst hb
          simp [Game.play, hm]
        | ok u => simp [Game.play, hm] at h
    | TurnO =>
      cases hm : Board.mark b Cell.O row col with
      | mk res b2 =>
        cases res with
        | error e2 =>
          have hb : b2 = b := Board.mark_error_snd b Cell.O row col e2 b2 hm
          subst hb
          simp [Game.play, hm]
        | ok u => simp [Game.play, hm] at h
  | XWon => simp [Game.play]
  | OWon => simp [Game.play]
  | Tie => simp [Game.play]

/-- Witness for C10 at the out-of-bounds input `(3, 0)` on a fresh game. -/
theorem play_error_atomic_witness :
    (Game.play Game.new 3 0).1 =
      Except.error (GamePlayError.MarkError BoardMarkError.OutOfBound) ∧
    (Game.play Game.new 3 0).2 = Game.new :=
  ⟨by decide, play_error_atomic Game.new 3 0
    (GamePlayError.MarkError BoardMarkError.OutOfBound) (by decide)⟩

end TicTacToe

namespace MCTS

open TicTacToe

/-- C8: programmer misuse fails fast — expanding a node that already has a
child panics (`none`), and backpropagating the non-terminal `Ongoing`
classification panics (`none`) without touching the tree. -/
theorem misuse_fails_fast :
    (∀ m : MCTN, m.children ≠ [] → m.expand_node = none) ∧
    (∀ (t : MCTN) (p : List Nat),
      t.backpropagate p GameState.Ongoing = none) := by
  constructor
  · intro m hm
    have hlen : m.children.length > 0 := List.length_pos.mpr hm
    simp [MCTN.expand_node, hlen]
  · intro t p
    rfl

/-- The game after X plays (0, 0) on a fresh board. -/
def gameX00 : Game := (Game.play Game.new 0 0).2

/-- A root that already has one child (as built by `MCTN::play`). -/
def demoParent : MCTN :=
  MCTN.mk Game.new none 0 0 [MCTN.mk gameX00 (some (0, 0)) 0 0 []]

/-- Witness for C8: the two aborts at concrete inputs. -/
theorem misuse_fails_fast_witness :
    demoParent.expand_node = none ∧
    demoParent.backpropagate [] GameState.Ongoing = none :=
  ⟨misuse_fails_fast.1 demoParent (by simp [demoParent, MCTN.children]),
   misuse_fails_fast.2 demoParent []⟩

/-- C3: `backpropagate(node, r)` with terminal `r` updates exactly the
nodes on the root-to-node chain, each exactly once: `visits` rises by 1
there (in particular at the root, whatever the depth), and `wins` rises by
1 exactly when the winner of `r` is not the player on move at that node's
stored state, by 1/2 on a tie regardless of the pending mover, and by 0
otherwise; every off-chain node and every game/child-count is unchanged. -/
theorem backpropagate_updates_path (t : MCTN) (p : List Nat) (r : GameState)
    (t2 : MCTN) (h : t.backpropagate p r = some t2) :
    (r = GameState.XWon ∨ r = GameState.OWon ∨ r = GameState.Tie) ∧
    ∀ q m, t.getNode? q = some m →
      ∃ m2, t2.getNode? q = some m2 ∧
        m2.game = m.game ∧
        m2.children.length = m.children.length ∧
        m2.visits = m.visits + (if liesOn q p then 1 else 0) ∧
        m2.wins = m.wins +
          (if liesOn q p then
            (if (r = GameState.XWon ∧ m.game.get_turn = GameTurn.TurnO) ∨
                (r = GameState.OWon ∧ m.game.get_turn = GameTurn.TurnX)
             then (1 : ℚ)
             else if r = GameState.Tie then 1 / 2 else 0)
           else 0) := by
  have hr : r ≠ GameState.Ongoing := by
    intro hr
    subst hr
    exact absurd h (by simp [MCTN.backpropagate])
  have hgo : MCTN.backpropGo t p r = some t2 := by
    cases r with
    | Ongoing => exact absurd rfl hr
    | XWon => exact h
    | OWon => exact h
    | Tie => exact h
  refine ⟨by cases r <;> simp_all, ?_⟩
  intro q m hq
  obtain ⟨m2, hm2, hg, hmv, hlen, hv, hw⟩ :=
    MCTN.backpropGo_spec r p t t2 hgo q m hq
  refine ⟨m2, hm2, hg, hlen, hv, ?_⟩
  rw [hw, creditFor_eq_spec r m.game.get_turn hr]

/-- The result of backpropagating `XWon` through `demoParent` at its only
child. -/
def demoParentBp : MCTN :=
  (demoParent.backpropagate [0] GameState.XWon).getD demoParent

/-- Witness for C3: a concrete two-node backpropagation (matching the
repository's own `test_backpropagate_xwon`). -/
theorem backpropagate_updates_path_witness :
    demoParent.backpropagate [0] GameState.XWon = some demoParentBp ∧
    ((GameState.XWon = GameState.XWon ∨ GameState.XWon = GameState.OWon ∨
        GameState.XWon = GameState.Tie) ∧
      ∀ q m, demoParent.getNode? q = some m →
        ∃ m2, demoParentBp.getNode? q = some m2 ∧
          m2.game = m.game ∧
          m2.children.length = m.children.length ∧
          m2.visits = m.visits + (if liesOn q [0] then 1 else 0) ∧
          m2.wins = m.wins +
            (if liesOn q [0] then
              (if (GameState.XWon = GameState.XWon ∧
                    m.game.get_turn = GameTurn.TurnO) ∨
                  (GameState.XWon = GameState.OWon ∧
                    m.game.get_turn = GameTurn.TurnX)
               then (1 : ℚ)
               else if GameState.XWon = GameState.Tie then 1 / 2 else 0)
             else 0)) :=
  ⟨rfl, backpropagate_updates_path demoParent [0] GameState.XWon
    demoParentBp rfl⟩

end MCTS

namespace TicTacToe

lemma is_over_false_iff (g : Game) :
    g.is_over = false ↔ g.state = GameState.Ongoing := by
  cases hs : g.state <;> simp [Game.is_over, hs]

lemma emptyPred_iff (o : Option Cell) :
    (match o with | some Cell.Empty => true | _ => false) = true ↔
      o = some Cell.Empty := by
  cases o with
  | none => simp
  | some cl => cases cl <;> simp

/-- Membership in `get_possible_plays`, both directions: exactly the
in-bounds empty cells of an ongoing game. -/
lemma mem_possible_plays (g : Game) (r c : Nat) :
    (r, c) ∈ g.get_possible_plays ↔
      g.state = GameState.Ongoing ∧ r < 3 ∧ c < 3 ∧
        g.board.get_cell r c = some Cell.Empty := by
  by_cases hov : g.is_over
  · have hst : ¬ g.state = GameState.Ongoing := by
      intro hs
      rw [(is_over_false_iff g).mpr hs] at hov
      exact Bool.noConfusion hov
    simp [Game.get_possible_plays, hov, hst]
  · have hov2 : g.is_over = false := by
      cases hb : g.is_over
      · rfl
      · exact absurd hb hov
    constructor
    · intro hmem
      simp only [Game.get_possible_plays, hov2, Bool.false_eq_true,
        if_false, List.mem_filter] at hmem
      obtain ⟨hmem1, hpred⟩ := hmem
      simp only [List.mem_flatMap, List.mem_map, List.mem_range] at hmem1
      obtain ⟨a, ha, b, hb, hab⟩ := hmem1
      have har : a = r := congrArg Prod.fst hab
      have hbc : b = c := congrArg Prod.snd hab
      subst har
      subst hbc
      exact ⟨(is_over_false_iff g).mp hov2, ha, hb, (emptyPred_iff _).mp hpred⟩
    · intro ⟨hst, hr, hc, hcell⟩
      simp only [Game.get_possible_plays, hov2, Bool.false_eq_true,
        if_false, List.mem_filter]
      refine ⟨?_, (emptyPred_iff _).mpr hcell⟩
      simp only [List.mem_flatMap, List.mem_map, List.mem_range]
      exact ⟨r, hr, c, hc, rfl⟩

/-- A successful `Board::mark` on an empty in-bounds cell, with the exact
resulting board. -/
lemma mark_ok_of_empty (b : Board) (mk : Cell) (r c : Nat)
    (h : b.get_cell r c = some Cell.Empty) :
    ∃ row, b.cells[r]? = some row ∧ row[c]? = some Cell.Empty ∧
      Board.mark b mk r c =
        (Except.ok (), ⟨b.cells.set r (row.set c mk)⟩) := by
  obtain ⟨row, h1, h2⟩ := Option.bind_eq_some.mp h
  exact ⟨row, h1, h2, by simp [Board.mark, h1, h2]⟩

/-- Here `get_played` returns exactly the post-play game when `play` succeeds. -/
lemma get_played_of_play_ok (g : Game) (r c : Nat)
    (h : (Game.play g r c).1 = Except.ok ()) :
    g.get_played r c = Except.ok (Game.play g r c).2 := by
  unfold Game.get_played
  cases hp : Game.play g r c with
  | mk res g1 =>
    rw [hp] at h
    simp only at h
    cases res with
    | ok u => simp [hp]
    | error e => exact absurd h (by simp)

/-- Every pair produced by `get_possible_plays` is an in-bounds empty cell
of an ongoing game, and playing it succeeds (shared helper behind C9). -/
lemma possible_play_succeeds (g : Game) (r c : Nat)
    (h : (r, c) ∈ g.get_possible_plays) :
    r ≤ 2 ∧ c ≤ 2 ∧ g.board.get_cell r c = some Cell.Empty ∧
      g.state = GameState.Ongoing ∧
      (Game.play g r c).1 = Except.ok () ∧
      ∃ g2, g.get_played r c = Except.ok g2 := by
  obtain ⟨hst, hr, hc, hcell⟩ := (mem_possible_plays g r c).mp h
  refine ⟨by omega, by omega, hcell, hst, ?_⟩
  obtain ⟨b, turn, st⟩ := g
  simp only at hst hcell
  subst hst
  obtain ⟨row, h1, h2, hmark⟩ := mark_ok_of_empty b Cell.X r c hcell
  obtain ⟨rowO, h1O, h2O, hmarkO⟩ := mark_ok_of_empty b Cell.O r c hcell
  cases turn with
  | TurnX =>
    have hfst :
        (Game.play ⟨b, GameTurn.TurnX, GameState.Ongoing⟩ r c).1 =
          Except.ok () := by
      simp [Game.play, hmark]
    exact ⟨hfst, _, get_played_of_play_ok _ r c hfst⟩
  | TurnO =>
    have hfst :
        (Game.play ⟨b, GameTurn.TurnO, GameState.Ongoing⟩ r c).1 =
          Except.ok () := by
      simp [Game.play, hmarkO]
    exact ⟨hfst, _, get_played_of_play_ok _ r c hfst⟩

/-- C9: every pair produced by `get_possible_plays` is an in-bounds empty
cell of an ongoing game, and playing it succeeds — so the `unwrap`s in
`MCTN::simulate_playout` and `MCTN::play` can never fire on moves the
engine draws from `get_possible_plays` itself. -/
theorem possible_plays_sound (g : Game) (r c : Nat)
    (h : (r, c) ∈ g.get_possible_plays) :
    r ≤ 2 ∧ c ≤ 2 ∧ g.board.get_cell r c = some Cell.Empty ∧
      g.state = GameState.Ongoing ∧
      (Game.play g r c).1 = Except.ok () ∧
      ∃ g2, g.get_played r c = Except.ok g2 :=
  possible_play_succeeds g r c h

/-- Witness for C9 at the first possible play of a fresh game. -/
theorem possible_plays_sound_witness :
    (0, 0) ∈ Game.new.get_possible_plays ∧
    (0 ≤ 2 ∧ 0 ≤ 2 ∧ Game.new.board.get_cell 0 0 = some Cell.Empty ∧
      Game.new.state = GameState.Ongoing ∧
      (Game.play Game.new 0 0).1 = Except.ok () ∧
      ∃ g2, Game.new.get_played 0 0 = Except.ok g2) :=
  ⟨by decide, possible_plays_sound Game.new 0 0 (by decide)⟩

end TicTacToe

namespace TicTacToe

/-- Structural well-formedness of a board: 3 rows of 3 cells.  Holds for
`Board::new` and is preserved by `mark`; the engine never builds anything
else. -/
def WF (g : Game) : Prop :=
  g.board.cells.length = 3 ∧ ∀ row ∈ g.board.cells, row.length = 3

/-- An ongoing game always has a possible play.  This holds for every game
the engine can reach (`update_state` declares a full board terminal), and
is what rules out the `gen_range(0..0)` panic in `simulate_playout`. -/
def GameInv (g : Game) : Prop :=
  g.state = GameState.Ongoing → g.get_possible_plays ≠ []

/-- The row-major 3×3 candidate list of `get_possible_plays`. -/
def allCells : List (Nat × Nat) :=
  (List.range 3).flatMap fun row_index =>
    (List.range 3).map fun col_index => (row_index, col_index)

lemma possible_plays_eq_filter (g : Game) (hov : g.is_over = false) :
    g.get_possible_plays = allCells.filter
      (fun rc =>
        match g.board.get_cell rc.1 rc.2 with
        | some Cell.Empty => true
        | _ => false) := by
  simp [Game.get_possible_plays, allCells, hov]

lemma scanPaths_board (g : Game) :
    ∀ (l : List (List (Nat × Nat))) (fe : Bool),
      (g.scanPaths l fe).board = g.board
  | [], fe => by cases fe <;> simp [Game.scanPaths]
  | path :: rest, fe => by
    simp only [Game.scanPaths]
    split_ifs <;>
      first
        | rfl
        | exact scanPaths_board g rest true
        | exact scanPaths_board g rest fe

lemma scanPaths_turn (g : Game) :
    ∀ (l : List (List (Nat × Nat))) (fe : Bool),
      (g.scanPaths l fe).turn = g.turn
  | [], fe => by cases fe <;> simp [Game.scanPaths]
  | path :: rest, fe => by
    simp only [Game.scanPaths]
    split_ifs <;>
      first
        | rfl
        | exact scanPaths_turn g rest true
        | exact scanPaths_turn g rest fe

lemma update_state_board (g : Game) : g.update_state.board = g.board := by
  unfold Game.update_state
  split_ifs
  · rfl
  · exact scanPaths_board g winPaths false

lemma update_state_turn (g : Game) : g.update_state.turn = g.turn := by
  unfold Game.update_state
  split_ifs
  · rfl
  · exact scanPaths_turn g winPaths false

/-- If the path scan ends still `Ongoing`, the input was `Ongoing` and
either the flag was already set or some scanned path is not yet full. -/
lemma scanPaths_ongoing (g : Game) :
    ∀ (l : List (List (Nat × Nat))) (fe : Bool),
      (g.scanPaths l fe).state = GameState.Ongoing →
      g.state = GameState.Ongoing ∧
        (fe = true ∨ ∃ path ∈ l,
          (g.check_win path).1 + (g.check_win path).2 < 3)
  | [], fe => by
    cases fe with
    | true => intro h; exact ⟨h, Or.inl rfl⟩
    | false => intro h; simp [Game.scanPaths] at h
  | path :: rest, fe => by
    intro h
    simp only [Game.scanPaths] at h
    split_ifs at h with hx ho hlt
    · obtain ⟨hg, _⟩ := scanPaths_ongoing g rest true h
      exact ⟨hg, Or.inr ⟨path, List.mem_cons_self .., hlt⟩⟩
    · obtain ⟨hg, hor⟩ := scanPaths_ongoing g rest fe h
      refine ⟨hg, ?_⟩
      rcases hor with hfe | ⟨path2, hmem, hlt2⟩
      · exact Or.inl hfe
      · exact Or.inr ⟨path2, List.mem_cons_of_mem _ hmem, hlt2⟩

lemma WF_get_cell_isSome (g : Game) (hWF : WF g) (r c : Nat)
    (hr : r < 3) (hc : c < 3) :
    (g.board.get_cell r c).isSome = true := by
  obtain ⟨hlen, hrows⟩ := hWF
  have hr2 : r < g.board.cells.length := by omega
  have hrow : g.board.cells[r]? = some g.board.cells[r] :=
    List.getElem?_eq_getElem hr2
  have hmem : g.board.cells[r] ∈ g.board.cells := List.getElem_mem hr2
  have hrl : g.board.cells[r].length = 3 := hrows _ hmem
  have hc2 : c < g.board.cells[r].length := by omega
  simp [Board.get_cell, hrow, List.getElem?_eq_getElem hc2]

/-- A 3-cell path whose mark counts sum below 3 (all cells readable)
contains an empty cell. -/
lemma check_win_lt_three (g : Game) (a b c3 : Nat × Nat)
    (ha : (g.board.get_cell a.1 a.2).isSome = true)
    (hb : (g.board.get_cell b.1 b.2).isSome = true)
    (hc : (g.board.get_cell c3.1 c3.2).isSome = true)
    (hlt : (g.check_win [a, b, c3]).1 + (g.check_win [a, b, c3]).2 < 3) :
    g.board.get_cell a.1 a.2 = some Cell.Empty ∨
    g.board.get_cell b.1 b.2 = some Cell.Empty ∨
    g.board.get_cell c3.1 c3.2 = some Cell.Empty := by
  obtain ⟨ca, hca⟩ := Option.isSome_iff_exists.mp ha
  obtain ⟨cb, hcb⟩ := Option.isSome_iff_exists.mp hb
  obtain ⟨cc, hcc⟩ := Option.isSome_iff_exists.mp hc
  cases ca <;> cases cb <;> cases cc <;>
    simp_all [Game.check_win]

/-- A still-`Ongoing` scan result means the (well-formed) board has an
empty in-bounds cell. -/
lemma ongoing_has_empty (g : Game) (hWF : WF g)
    (hst : (g.scanPaths winPaths false).state = GameState.Ongoing) :
    ∃ r c, r < 3 ∧ c < 3 ∧ g.board.get_cell r c = some Cell.Empty := by
  obtain ⟨-, hor⟩ := scanPaths_ongoing g winPaths false hst
  rcases hor with hfe | ⟨path, hmem, hlt⟩
  · exact absurd hfe (by simp)
  · have hsome := fun (r c : Nat) (hr : r < 3) (hc : c < 3) =>
      WF_get_cell_isSome g hWF r c hr hc
    simp only [winPaths, List.mem_cons, List.mem_singleton] at hmem
    rcases hmem with rfl | rfl | rfl | rfl | rfl | rfl | rfl | rfl | hfalse
    all_goals first
      | (rcases check_win_lt_three g _ _ _
          (hsome _ _ (by omega) (by omega)) (hsome _ _ (by omega) (by omega))
          (hsome _ _ (by omega) (by omega)) hlt with hcell | hcell | hcell <;>
          exact ⟨_, _, by omega, by omega, hcell⟩)
      | simp at hfalse

/-- Strict `countP` decrease: if `q` implies `p` pointwise and some list
element satisfies `p` but not `q`. -/
lemma countP_lt_of_witness {α : Type} :
    ∀ (l : List α) (p q : α → Bool),
      (∀ x ∈ l, q x = true → p x = true) →
      ∀ a ∈ l, p a = true → q a = false → l.countP q < l.countP p := by
  intro l p q
  induction l with
  | nil =>
    intro _ a ha
    simp at ha
  | cons x rest ih =>
    intro hle a ha hpa hqa
    rw [List.countP_cons, List.countP_cons]
    have hle2 : ∀ y ∈ rest, q y = true → p y = true :=
      fun y hy hq => hle y (List.mem_cons_of_mem _ hy) hq
    have hrest_le : rest.countP q ≤ rest.countP p :=
      List.countP_mono_left hle2
    rcases List.mem_cons.mp ha with rfl | hmem
    · simp [hpa, hqa]
      omega
    · have hlt := ih hle2 a hmem hpa hqa
      have hx : (if q x = true then 1 else 0) ≤
          (if p x = true then 1 else 0) := by
        cases hqx : q x with
        | false => simp
        | true => simp [hle x (List.mem_cons_self ..) hqx]
      omega

/-- Cell-wise effect of a successful `mark`: the marked cell now holds the
mark, every other cell reads as before. -/
lemma mark_ok_get_cell (b : Board) (mk : Cell) (r c : Nat) (row : List Cell)
    (h1 : b.cells[r]? = some row) (h2 : row[c]? = some Cell.Empty) :
    ∀ x y, Board.get_cell ⟨b.cells.set r (row.set c mk)⟩ x y =
      if x = r ∧ y = c then some mk else b.get_cell x y := by
  intro x y
  have hrlt : r < b.cells.length := by
    by_contra hge
    rw [List.getElem?_eq_none (Nat.le_of_not_lt hge)] at h1
    exact Option.noConfusion h1
  have hclt : c < row.length := by
    by_contra hge
    rw [List.getElem?_eq_none (Nat.le_of_not_lt hge)] at h2
    exact Option.noConfusion h2
  simp only [Board.get_cell]
  by_cases hx : x = r
  · subst hx
    rw [List.getElem?_set_eq_of_lt _ hrlt]
    by_cases hy : y = c
    · subst hy
      rw [Option.some_bind, List.getElem?_set_eq_of_lt _ hclt]
      simp
    · rw [Option.some_bind, List.getElem?_set_ne (fun h => hy h.symm)]
      simp only [hy, and_false, if_false]
      rw [h1, Option.some_bind]
  · rw [List.getElem?_set_ne (fun h => hx h.symm)]
    simp [hx]

end TicTacToe

namespace TicTacToe

/-- Everything `play` needs about the game reached after marking an empty
in-bounds cell: it stays well-formed, keeps the invariant, and has strictly
fewer possible plays than the game before the mark. -/
lemma snd_game_facts (b : Board) (tn tn2 : GameTurn) (mk : Cell) (r c : Nat)
    (row : List Cell)
    (hmk : mk ≠ Cell.Empty)
    (hWF : WF ⟨b, tn, GameState.Ongoing⟩)
    (h1 : b.cells[r]? = some row) (h2 : row[c]? = some Cell.Empty)
    (hr : r < 3) (hc : c < 3) :
    WF { Game.update_state ⟨⟨b.cells.set r (row.set c mk)⟩, tn,
          GameState.Ongoing⟩ with turn := tn2 } ∧
    GameInv { Game.update_state ⟨⟨b.cells.set r (row.set c mk)⟩, tn,
          GameState.Ongoing⟩ with turn := tn2 } ∧
    (Game.get_possible_plays
        { Game.update_state ⟨⟨b.cells.set r (row.set c mk)⟩, tn,
            GameState.Ongoing⟩ with turn := tn2 }).length <
      (Game.get_possible_plays ⟨b, tn, GameState.Ongoing⟩).length := by
  obtain ⟨hlen, hrows⟩ := hWF
  simp only at hlen hrows
  set b2 : Board := ⟨b.cells.set r (row.set c mk)⟩ with hb2def
  set gb : Game := ⟨b2, tn, GameState.Ongoing⟩ with hgbdef
  set g2 : Game := { Game.update_state gb with turn := tn2 } with hg2def
  have hcellchar := mark_ok_get_cell b mk r c row h1 h2
  have hWFgb : WF gb := by
    refine ⟨by simp [hgbdef, hb2def, hlen], ?_⟩
    intro rw hrw
    simp only [hgbdef, hb2def] at hrw
    rcases List.mem_or_eq_of_mem_set hrw with hmem | rfl
    · exact hrows _ hmem
    · have hrowmem : row ∈ b.cells := List.getElem?_mem h1
      simp [hrows _ hrowmem]
  have hg2board : g2.board = b2 := by
    simp only [hg2def]
    exact update_state_board gb
  have hgbov : gb.is_over = false := rfl
  have hups : Game.update_state gb = gb.scanPaths winPaths false := by
    unfold Game.update_state
    rw [hgbov]
    simp
  have hcellold : Board.get_cell b r c = some Cell.Empty := by
    simp [Board.get_cell, h1, h2]
  have hmemold : (r, c) ∈ Game.get_possible_plays ⟨b, tn, GameState.Ongoing⟩ :=
    (mem_possible_plays _ r c).mpr ⟨rfl, hr, hc, hcellold⟩
  refine ⟨⟨by rw [hg2board, hb2def]; simpa using hlen, ?_⟩, ?_, ?_⟩
  · -- rows of the marked board
    intro rw hrw
    rw [hg2board] at hrw
    simp only [hb2def] at hrw
    rcases List.mem_or_eq_of_mem_set hrw with hmem | rfl
    · exact hrows _ hmem
    · have hrowmem : row ∈ b.cells := List.getElem?_mem h1
      simp [hrows _ hrowmem]
  · -- invariant: still-ongoing marked game has an empty cell
    intro hst
    have hst2 : (gb.scanPaths winPaths false).state = GameState.Ongoing := by
      rw [← hups]
      simpa [hg2def] using hst
    obtain ⟨x, y, hx, hy, hcell2⟩ := ongoing_has_empty gb hWFgb hst2
    have hxy : (x, y) ∈ g2.get_possible_plays := by
      refine (mem_possible_plays g2 x y).mpr ⟨hst, hx, hy, ?_⟩
      rw [hg2board]
      exact hcell2
    exact List.ne_nil_of_mem hxy
  · -- strictly fewer possible plays
    have hpos : 0 < (Game.get_possible_plays ⟨b, tn, GameState.Ongoing⟩).length :=
      List.length_pos.mpr (List.ne_nil_of_mem hmemold)
    cases hov2 : g2.is_over with
    | true =>
      have : g2.get_possible_plays = [] := by
        simp [Game.get_possible_plays, hov2]
      rw [this]
      simpa using hpos
    | false =>
      rw [possible_plays_eq_filter _ hov2,
        possible_plays_eq_filter ⟨b, tn, GameState.Ongoing⟩ rfl]
      rw [← List.countP_eq_length_filter, ← List.countP_eq_length_filter]
      have hb4 : gb.update_state.board =
          (⟨b.cells.set r (row.set c mk)⟩ : Board) := by
        rw [update_state_board]
      simp only [hb4]
      apply countP_lt_of_witness allCells _ _ ?hle (r, c) ?hmem ?hp ?hq
      case hle =>
        intro x hx hq
        have hcellx := (emptyPred_iff _).mp hq
        rw [hcellchar x.1 x.2] at hcellx
        by_cases hxy : x.1 = r ∧ x.2 = c
        · rw [if_pos hxy] at hcellx
          exact absurd (Option.some.inj hcellx) hmk
        · rw [if_neg hxy] at hcellx
          exact (emptyPred_iff _).mpr hcellx
      case hmem =>
        simp only [allCells, List.mem_flatMap, List.mem_map, List.mem_range]
        exact ⟨r, hr, c, hc, rfl⟩
      case hp => exact (emptyPred_iff _).mpr hcellold
      case hq =>
        rw [hcellchar, if_pos ⟨rfl, rfl⟩]
        cases mk with
        | X => rfl
        | O => rfl
        | Empty => exact absurd rfl hmk

/-- The full bundle: a move from `get_possible_plays` succeeds, and the
resulting game is well-formed, keeps the invariant, and has strictly fewer
possible plays. -/
lemma play_possible (g : Game) (r c : Nat) (hWF : WF g)
    (hmem : (r, c) ∈ g.get_possible_plays) :
    (Game.play g r c).1 = Except.ok () ∧
    WF (Game.play g r c).2 ∧
    GameInv (Game.play g r c).2 ∧
    (Game.play g r c).2.get_possible_plays.length <
      g.get_possible_plays.length := by
  obtain ⟨hst, hr, hc, hcell⟩ := (mem_possible_plays g r c).mp hmem
  obtain ⟨b, tn, st⟩ := g
  simp only at hst hcell
  subst hst
  have hWF2 : WF ⟨b, tn, GameState.Ongoing⟩ := hWF
  obtain ⟨row, h1, h2, hmarkX⟩ := mark_ok_of_empty b Cell.X r c hcell
  obtain ⟨rowO, h1O, h2O, hmarkO⟩ := mark_ok_of_empty b Cell.O r c hcell
  cases tn with
  | TurnX =>
    have hsnd :
        (Game.play ⟨b, GameTurn.TurnX, GameState.Ongoing⟩ r c) =
          (Except.ok (),
            { Game.update_state ⟨⟨b.cells.set r (row.set c Cell.X)⟩,
                GameTurn.TurnX, GameState.Ongoing⟩ with
                turn := GameTurn.TurnO }) := by
      simp [Game.play, hmarkX]
    obtain ⟨hwf2, hinv2, hlt2⟩ :=
      snd_game_facts b GameTurn.TurnX GameTurn.TurnO Cell.X r c row
        (by intro hx; exact Cell.noConfusion hx) hWF2 h1 h2 hr hc
    rw [hsnd]
    exact ⟨rfl, hwf2, hinv2, hlt2⟩
  | TurnO =>
    have hsnd :
        (Game.play ⟨b, GameTurn.TurnO, GameState.Ongoing⟩ r c) =
          (Except.ok (),
            { Game.update_state ⟨⟨b.cells.set r (rowO.set c Cell.O)⟩,
                GameTurn.TurnO, GameState.Ongoing⟩ with
                turn := GameTurn.TurnX }) := by
      simp [Game.play, hmarkO]
    obtain ⟨hwf2, hinv2, hlt2⟩ :=
      snd_game_facts b GameTurn.TurnO GameTurn.TurnX Cell.O r c rowO
        (by intro hx; exact Cell.noConfusion hx) hWF2 h1O h2O hr hc
    rw [hsnd]
    exact ⟨rfl, hwf2, hinv2, hlt2⟩

end TicTacToe

namespace TicTacToe

lemma plays_le_nine (g : Game) : g.get_possible_plays.length ≤ 9 := by
  by_cases hov : g.is_over = true
  · simp [Game.get_possible_plays, hov]
  · have hov2 : g.is_over = false := by
      cases hb : g.is_over
      · rfl
      · exact absurd hb hov
    rw [possible_plays_eq_filter g hov2]
    have hle := List.length_filter_le
      (fun rc =>
        match g.board.get_cell rc.1 rc.2 with
        | some Cell.Empty => true
        | _ => false) allCells
    have h9 : allCells.length = 9 := by decide
    omega

end TicTacToe

namespace MCTS

open TicTacToe

/-- The rollout loop terminates with a terminal classification from any
well-formed game satisfying the invariant, given fuel exceeding the number
of possible plays. -/
lemma simLoop_ok : ∀ (fuel : Nat) (g : Game) (pick : Nat → Nat) (k : Nat),
    WF g → GameInv g → g.get_possible_plays.length < fuel →
    ∃ res, simLoop fuel g pick k = some res ∧ res ≠ GameState.Ongoing := by
  intro fuel
  induction fuel with
  | zero =>
    intro g pick k _ _ hlt
    omega
  | succ fuel ih =>
    intro g pick k hWF hInv hlt
    by_cases hov : g.is_over = true
    · refine ⟨g.get_state, by simp [simLoop, hov], ?_⟩
      intro hres
      have hov2 : g.is_over = false := (is_over_false_iff g).mpr hres
      rw [hov2] at hov
      exact Bool.noConfusion hov
    · have hov2 : g.is_over = false := by
        cases hb : g.is_over
        · rfl
        · exact absurd hb hov
      have hst : g.state = GameState.Ongoing := (is_over_false_iff g).mp hov2
      have hne : g.get_possible_plays ≠ [] := hInv hst
      have hlen0 : 0 < g.get_possible_plays.length := List.length_pos.mpr hne
      have hidx : pick k % g.get_possible_plays.length <
          g.get_possible_plays.length := Nat.mod_lt _ hlen0
      set rc := g.get_possible_plays[pick k % g.get_possible_plays.length]
        with hrcdef
      have hget :
          g.get_possible_plays[pick k % g.get_possible_plays.length]? =
            some rc := List.getElem?_eq_getElem hidx
      have hmem : (rc.1, rc.2) ∈ g.get_possible_plays := by
        rw [Prod.mk.eta]
        exact List.getElem_mem hidx
      obtain ⟨hfst, hWF2, hInv2, hdec⟩ := play_possible g rc.1 rc.2 hWF hmem
      cases hplay : Game.play g rc.1 rc.2 with
      | mk res g2 =>
        rw [hplay] at hfst hWF2 hInv2 hdec
        simp only at hfst hWF2 hInv2 hdec
        subst hfst
        obtain ⟨res2, hres2, hneq⟩ := ih g2 pick (k + 1) hWF2 hInv2 (by omega)
        refine ⟨res2, ?_, hneq⟩
        rw [show simLoop (fuel + 1) g pick k = simLoop fuel g2 pick (k + 1)
          from by simp [simLoop, hov2, hget, hplay]]
        exact hres2

/-- C6: `simulate_playout` always returns a classification that is not
`Ongoing` (for the well-formed, invariant-satisfying games every tree node
holds); on a node whose state is already terminal it returns that state's
classification immediately, independently of the random oracle — a
zero-move rollout.  The rollout runs on a value copy of the node's game:
in this pure embedding the function reads only `node.game` and the tree is
untouched by construction. -/
theorem simulate_playout_correct (node : MCTN) (pick : Nat → Nat)
    (hWF : WF node.game) (hinv : GameInv node.game) :
    (∃ res, node.simulate_playout pick = some res ∧
      res ≠ GameState.Ongoing) ∧
    (node.game.is_over = true →
      node.simulate_playout pick = some node.game.get_state ∧
      ∀ pick2, node.simulate_playout pick2 = node.simulate_playout pick) := by
  have hle : node.game.get_possible_plays.length < 10 := by
    have h9 := plays_le_nine node.game
    omega
  constructor
  · exact simLoop_ok 10 node.game pick 0 hWF hinv hle
  · intro hov
    constructor
    · simp [MCTN.simulate_playout, simLoop, hov]
    · intro pick2
      simp [MCTN.simulate_playout, simLoop, hov]

/-- Witness for C6 at a fresh root with the always-first-move oracle. -/
theorem simulate_playout_correct_witness :
    WF (MCTN.new Game.new).game ∧ GameInv (MCTN.new Game.new).game ∧
    ((∃ res, (MCTN.new Game.new).simulate_playout (fun _ => 0) = some res ∧
        res ≠ GameState.Ongoing) ∧
      ((MCTN.new Game.new).game.is_over = true →
        (MCTN.new Game.new).simulate_playout (fun _ => 0) =
          some (MCTN.new Game.new).game.get_state ∧
        ∀ pick2, (MCTN.new Game.new).simulate_playout pick2 =
          (MCTN.new Game.new).simulate_playout (fun _ => 0))) :=
  ⟨⟨by decide, by decide⟩, fun hst => by decide,
    simulate_playout_correct (MCTN.new Game.new) (fun _ => 0)
      ⟨by decide, by decide⟩ (fun hst => by decide)⟩

end MCTS

namespace MCTS

open TicTacToe

lemma MCTN.setChildren_children_self (t : MCTN) :
    t.setChildren t.children = t := by
  cases t
  rfl

lemma MCTN.setChildren_setChildren (t : MCTN) (cs cs2 : List MCTN) :
    (t.setChildren cs).setChildren cs2 = t.setChildren cs2 := by
  cases t
  rfl

/-- The child node `MCTN::play` pushes for move `rc`: the game after the
move (the `unwrap` on `get_played` is proved total for moves drawn from
`get_possible_plays`), zero statistics, the move recorded. -/
def childFor (g : Game) (rc : Nat × Nat) : MCTN :=
  MCTN.mk ((g.get_played rc.1 rc.2).toOption.getD g) (some rc) 0 0 []

lemma MCTN.play_ok (parent : MCTN) (r c : Nat) (g2 : Game)
    (h : parent.game.get_played r c = Except.ok g2) :
    parent.play r c = some (parent.setChildren (parent.children ++
      [MCTN.mk g2 (some (r, c)) 0 0 []])) := by
  simp [MCTN.play, h]

lemma childFor_eq (g : Game) (rc : Nat × Nat) (g2 : Game)
    (h : g.get_played rc.1 rc.2 = Except.ok g2) :
    childFor g rc = MCTN.mk g2 (some rc) 0 0 [] := by
  simp [childFor, h, Except.toOption]

/-- The `MCTN::play` loop of `expand_node` appends exactly one `childFor`
per move, in order, when every move plays successfully. -/
lemma foldlM_play_char : ∀ (l : List (Nat × Nat)) (acc : MCTN),
    (∀ rc ∈ l, ∃ g2, acc.game.get_played rc.1 rc.2 = Except.ok g2) →
    List.foldlM (fun acc rc => MCTN.play acc rc.1 rc.2) acc l =
      some (acc.setChildren (acc.children ++ l.map (childFor acc.game)))
  | [], acc, h => by
    simp [List.foldlM, MCTN.setChildren_children_self]
  | rc :: rest, acc, h => by
    obtain ⟨g2, hg2⟩ := h rc (List.mem_cons_self ..)
    have hchild : childFor acc.game rc = MCTN.mk g2 (some rc) 0 0 [] :=
      childFor_eq acc.game rc g2 hg2
    have hplay := MCTN.play_ok acc rc.1 rc.2 g2 hg2
    have hacc2 :
        (acc.setChildren (acc.children ++
            [MCTN.mk g2 (some (rc.1, rc.2)) 0 0 []])).game = acc.game :=
      MCTN.game_setChildren ..
    have hrest := foldlM_play_char rest
      (acc.setChildren (acc.children ++
        [MCTN.mk g2 (some (rc.1, rc.2)) 0 0 []]))
      (by
        intro rc2 hrc2
        rw [hacc2]
        exact h rc2 (List.mem_cons_of_mem _ hrc2))
    have hstep :
        List.foldlM (fun acc rc => MCTN.play acc rc.1 rc.2) acc (rc :: rest) =
        List.foldlM (fun acc rc => MCTN.play acc rc.1 rc.2)
          (acc.setChildren (acc.children ++
            [MCTN.mk g2 (some (rc.1, rc.2)) 0 0 []])) rest := by
      simp [List.foldlM, hplay]
    rw [hstep, hrest]
    rw [MCTN.setChildren_setChildren, MCTN.children_setChildren, hacc2,
      List.append_assoc, List.singleton_append]
    simp [hchild]

/-- What a successful `expand_node` produces: the guard guarantees the node
was a leaf, and the children become exactly one `childFor` per possible
play, in order. -/
lemma MCTN.expand_node_char (m m2 : MCTN) (h : m.expand_node = some m2) :
    m.children = [] ∧
    m2 = m.setChildren (m.game.get_possible_plays.map (childFor m.game)) := by
  unfold MCTN.expand_node at h
  by_cases hc : m.children.length > 0
  · rw [if_pos hc] at h
    exact absurd h (by simp)
  · rw [if_neg hc] at h
    have hnil : m.children = [] := by
      cases hcs : m.children with
      | nil => rfl
      | cons x xs => rw [hcs] at hc; simp at hc
    have hsucc : ∀ rc ∈ m.game.get_possible_plays,
        ∃ g2, m.game.get_played rc.1 rc.2 = Except.ok g2 := by
      intro rc hrc
      have hs := possible_play_succeeds m.game rc.1 rc.2 (by rwa [Prod.mk.eta])
      exact hs.2.2.2.2.2
    rw [foldlM_play_char _ m hsucc] at h
    refine ⟨hnil, (Option.some.inj h).symm ▸ ?_⟩
    rw [hnil]
    simp

/-- C5: on a leaf, `expand_node` creates exactly one child per legal move,
in enumeration order; each child holds the state after its move, starts at
`wins = visits = 0`, records the producing move, and is itself childless;
on a terminal state (no legal moves) zero children are created and the node
stays a leaf.  (The Rust child also stores a weak back-reference to the
node; in this tree embedding the parent link is the tree structure itself.) -/
theorem expand_node_correct (m m2 : MCTN) (h : m.expand_node = some m2) :
    m.children = [] ∧
    m2.game = m.game ∧ m2.wins = m.wins ∧ m2.visits = m.visits ∧
    m2.move_from_parent = m.move_from_parent ∧
    m2.children.length = m.game.get_possible_plays.length ∧
    (∀ (i : Nat) (rc : Nat × Nat), m.game.get_possible_plays[i]? = some rc →
      ∃ c : MCTN, m2.children[i]? = some c ∧
        m.game.get_played rc.1 rc.2 = Except.ok c.game ∧
        c.wins = 0 ∧ c.visits = 0 ∧ c.move_from_parent = some rc ∧
        c.children = []) ∧
    (m.game.is_over = true → m2.children = []) := by
  obtain ⟨hnil, hm2⟩ := MCTN.expand_node_char m m2 h
  subst hm2
  refine ⟨hnil, MCTN.game_setChildren .., MCTN.wins_setChildren ..,
    MCTN.visits_setChildren .., MCTN.mfp_setChildren .., ?_, ?_, ?_⟩
  · rw [MCTN.children_setChildren]
    simp
  · intro i rc hrc
    have hmem : (rc.1, rc.2) ∈ m.game.get_possible_plays := by
      rw [Prod.mk.eta]
      exact List.getElem?_mem hrc
    obtain ⟨g2, hg2⟩ :=
      (possible_play_succeeds m.game rc.1 rc.2 hmem).2.2.2.2.2
    refine ⟨childFor m.game rc, ?_, ?_⟩
    · rw [MCTN.children_setChildren, List.getElem?_map, hrc]
      rfl
    · rw [childFor_eq m.game rc g2 hg2]
      exact ⟨hg2, rfl, rfl, rfl, rfl⟩
  · intro hov
    rw [MCTN.children_setChildren]
    simp [Game.get_possible_plays, hov]

/-- The expansion of a fresh root (9 children, matching
`test_expand_node`). -/
def rootExpanded : MCTN :=
  ((MCTN.new Game.new).expand_node).getD (MCTN.new Game.new)

/-- Witness for C5: expanding a fresh root. -/
theorem expand_node_correct_witness :
    (MCTN.new Game.new).expand_node = some rootExpanded ∧
    ((MCTN.new Game.new).children = [] ∧
      rootExpanded.game = (MCTN.new Game.new).game ∧
      rootExpanded.wins = (MCTN.new Game.new).wins ∧
      rootExpanded.visits = (MCTN.new Game.new).visits ∧
      rootExpanded.move_from_parent = (MCTN.new Game.new).move_from_parent ∧
      rootExpanded.children.length =
        (MCTN.new Game.new).game.get_possible_plays.length ∧
      (∀ (i : Nat) (rc : Nat × Nat),
          (MCTN.new Game.new).game.get_possible_plays[i]? = some rc →
        ∃ c : MCTN, rootExpanded.children[i]? = some c ∧
          (MCTN.new Game.new).game.get_played rc.1 rc.2 =
            Except.ok c.game ∧
          c.wins = 0 ∧ c.visits = 0 ∧ c.move_from_parent = some rc ∧
          c.children = []) ∧
      ((MCTN.new Game.new).game.is_over = true →
        rootExpanded.children = [])) :=
  ⟨rfl, expand_node_correct (MCTN.new Game.new) rootExpanded rfl⟩

end MCTS

namespace MCTS

open TicTacToe

/-- A predicate holding at every node (position) of a tree. -/
def AllNodes (P : MCTN → Prop) (t : MCTN) : Prop :=
  ∀ q m, t.getNode? q = some m → P m

lemma allNodes_sub {P : MCTN → Prop} {t m : MCTN} {q : List Nat}
    (hall : AllNodes P t) (hq : t.getNode? q = some m) : AllNodes P m := by
  intro q2 m2 hq2
  apply hall (q ++ q2)
  rw [MCTN.getNode?_append, hq]
  simpa using hq2

lemma MCTN.modifyAt_getNode?_self :
    ∀ (p : List Nat) (t t2 : MCTN) (f : MCTN → Option MCTN),
      t.modifyAt p f = some t2 →
      ∃ m m2, t.getNode? p = some m ∧ f m = some m2 ∧
        t2.getNode? p = some m2
  | [], t, t2, f, h => ⟨t, t2, rfl, h, rfl⟩
  | i :: p, t, t2, f, h => by
    simp only [MCTN.modifyAt] at h
    obtain ⟨c, hc, h⟩ := Option.bind_eq_some.mp h
    obtain ⟨c2, hrec, h⟩ := Option.map_eq_some'.mp h
    subst h
    obtain ⟨m, m2, hm, hf, hm2⟩ :=
      MCTN.modifyAt_getNode?_self p c c2 f hrec
    have hlt : i < t.children.length := by
      by_contra hge
      rw [List.getElem?_eq_none (Nat.le_of_not_lt hge)] at hc
      exact Option.noConfusion hc
    refine ⟨m, m2, ?_, hf, ?_⟩
    · simp only [MCTN.getNode?, hc]
      exact hm
    · simp only [MCTN.getNode?, MCTN.children_setChildren]
      rw [List.getElem?_set_eq_of_lt _ hlt]
      exact hm2

/-- When `f` preserves a node's own data and its existing children,
`modifyAt p f` preserves the data of every pre-existing position. -/
lemma MCTN.modifyAt_preserves (f : MCTN → Option MCTN)
    (hf : ∀ m m2, f m = some m2 →
      m2.game = m.game ∧ m2.move_from_parent = m.move_from_parent ∧
      m2.wins = m.wins ∧ m2.visits = m.visits ∧
      ∀ (j : Nat) (d : MCTN), m.children[j]? = some d →
        m2.children[j]? = some d) :
    ∀ (p : List Nat) (t t2 : MCTN), t.modifyAt p f = some t2 →
    ∀ q m, t.getNode? q = some m →
      ∃ m2, t2.getNode? q = some m2 ∧ m2.game = m.game ∧
        m2.move_from_parent = m.move_from_parent ∧
        m2.wins = m.wins ∧ m2.visits = m.visits
  | [], t, t2, h, q, m, hq => by
    cases q with
    | nil =>
      simp only [MCTN.getNode?, Option.some.injEq] at hq
      subst hq
      obtain ⟨hg, hmv, hw, hv, _⟩ := hf t t2 h
      exact ⟨t2, rfl, hg, hmv, hw, hv⟩
    | cons j s =>
      simp only [MCTN.getNode?] at hq
      cases hd : t.children[j]? with
      | none => rw [hd] at hq; exact Option.noConfusion hq
      | some d =>
        rw [hd] at hq
        obtain ⟨-, -, -, -, hkids⟩ := hf t t2 h
        refine ⟨m, ?_, rfl, rfl, rfl, rfl⟩
        simp only [MCTN.getNode?, hkids j d hd]
        exact hq
  | i :: p, t, t2, h, q, m, hq => by
    simp only [MCTN.modifyAt] at h
    obtain ⟨c, hc, h⟩ := Option.bind_eq_some.mp h
    obtain ⟨c2, hrec, h⟩ := Option.map_eq_some'.mp h
    subst h
    have hlt : i < t.children.length := by
      by_contra hge
      rw [List.getElem?_eq_none (Nat.le_of_not_lt hge)] at hc
      exact Option.noConfusion hc
    cases q with
    | nil =>
      simp only [MCTN.getNode?, Option.some.injEq] at hq
      subst hq
      exact ⟨_, rfl, MCTN.game_setChildren .., MCTN.mfp_setChildren ..,
        MCTN.wins_setChildren .., MCTN.visits_setChildren ..⟩
    | cons j s =>
      simp only [MCTN.getNode?] at hq ⊢
      simp only [MCTN.children_setChildren]
      by_cases hij : i = j
      · subst hij
        rw [hc] at hq
        rw [List.getElem?_set_eq_of_lt _ hlt]
        exact MCTN.modifyAt_preserves f hf p c c2 hrec s m hq
      · rw [List.getElem?_set_ne hij]
        cases hd : t.children[j]? with
        | none => rw [hd] at hq; exact Option.noConfusion hq
        | some d =>
          rw [hd] at hq
          exact ⟨m, hq, rfl, rfl, rfl, rfl⟩

/-- Replacing the children with a mix of old children and fresh zero-stat
leaves preserves an `AllNodes` predicate that ignores children. -/
lemma allNodes_setChildren_mix (P : MCTN → Prop)
    (hP : ∀ m cs, P m → P (m.setChildren cs))
    (hzero : ∀ g mv, P (MCTN.mk g mv 0 0 []))
    (m : MCTN) (cs : List MCTN)
    (hcs : ∀ c ∈ cs, c ∈ m.children ∨ ∃ g mv, c = MCTN.mk g mv 0 0 [])
    (hall : AllNodes P m) : AllNodes P (m.setChildren cs) := by
  intro q m0 hq
  cases q with
  | nil =>
    simp only [MCTN.getNode?, Option.some.injEq] at hq
    subst hq
    exact hP m cs (hall [] m rfl)
  | cons j s =>
    simp only [MCTN.getNode?, MCTN.children_setChildren] at hq
    cases hd : cs[j]? with
    | none => rw [hd] at hq; exact Option.noConfusion hq
    | some d =>
      rw [hd] at hq
      rcases hcs d (List.getElem?_mem hd) with hold | ⟨g, mv, rfl⟩
      · obtain ⟨j2, hj2⟩ := List.mem_iff_getElem?.mp hold
        apply allNodes_sub hall (q := [j2]) ?_ s m0 hq
        simp only [MCTN.getNode?, hj2]
      · cases s with
        | nil =>
          simp only [MCTN.getNode?, Option.some.injEq] at hq
          subst hq
          exact hzero g mv
        | cons s0 srest =>
          simp [MCTN.getNode?, MCTN.children] at hq

/-- Here `AllNodes` preservation through `modifyAt`. -/
lemma allNodes_modifyAt (P : MCTN → Prop)
    (hP : ∀ m cs, P m → P (m.setChildren cs))
    (f : MCTN → Option MCTN)
    (hf : ∀ m m2, f m = some m2 → AllNodes P m → AllNodes P m2) :
    ∀ (p : List Nat) (t t2 : MCTN), t.modifyAt p f = some t2 →
      AllNodes P t → AllNodes P t2
  | [], t, t2, h, hall => hf t t2 h hall
  | i :: p, t, t2, h, hall => by
    simp only [MCTN.modifyAt] at h
    obtain ⟨c, hc, h⟩ := Option.bind_eq_some.mp h
    obtain ⟨c2, hrec, h⟩ := Option.map_eq_some'.mp h
    subst h
    have hlt : i < t.children.length := by
      by_contra hge
      rw [List.getElem?_eq_none (Nat.le_of_not_lt hge)] at hc
      exact Option.noConfusion hc
    have hallc : AllNodes P c := by
      apply allNodes_sub hall (q := [i])
      simp only [MCTN.getNode?, hc]
    have hallc2 : AllNodes P c2 := allNodes_modifyAt P hP f hf p c c2 hrec hallc
    intro q m0 hq
    cases q with
    | nil =>
      simp only [MCTN.getNode?, Option.some.injEq] at hq
      subst hq
      exact hP t _ (hall [] t rfl)
    | cons j s =>
      simp only [MCTN.getNode?, MCTN.children_setChildren] at hq
      by_cases hij : i = j
      · subst hij
        rw [List.getElem?_set_eq_of_lt _ hlt] at hq
        exact hallc2 s m0 hq
      · rw [List.getElem?_set_ne hij] at hq
        cases hd : t.children[j]? with
        | none => rw [hd] at hq; exact Option.noConfusion hq
        | some d =>
          rw [hd] at hq
          exact allNodes_sub hall (q := [j])
            (by simp only [MCTN.getNode?, hd]) s m0 hq

end MCTS

namespace MCTS

open TicTacToe

/-- Successful `MCTN::play` pushes exactly one zero-stat child. -/
lemma MCTN.play_shape (m m2 : MCTN) (r c : Nat) (h : m.play r c = some m2) :
    ∃ g2, m.game.get_played r c = Except.ok g2 ∧
      m2 = m.setChildren (m.children ++
        [MCTN.mk g2 (some (r, c)) 0 0 []]) := by
  unfold MCTN.play at h
  cases hg : m.game.get_played r c with
  | ok g2 =>
    rw [hg] at h
    exact ⟨g2, rfl, (Option.some.inj h).symm⟩
  | error e =>
    rw [hg] at h
    exact Option.noConfusion h

lemma MCTN.play_heads (r c : Nat) :
    ∀ (m m2 : MCTN), m.play r c = some m2 →
      m2.game = m.game ∧ m2.move_from_parent = m.move_from_parent ∧
      m2.wins = m.wins ∧ m2.visits = m.visits ∧
      ∀ (j : Nat) (d : MCTN), m.children[j]? = some d →
        m2.children[j]? = some d := by
  intro m m2 h
  obtain ⟨g2, -, rfl⟩ := MCTN.play_shape m m2 r c h
  refine ⟨MCTN.game_setChildren .., MCTN.mfp_setChildren ..,
    MCTN.wins_setChildren .., MCTN.visits_setChildren .., ?_⟩
  intro j d hd
  have hj : j < m.children.length := by
    by_contra hge
    rw [List.getElem?_eq_none (Nat.le_of_not_lt hge)] at hd
    exact Option.noConfusion hd
  rw [MCTN.children_setChildren, List.getElem?_append, if_pos hj]
  exact hd

lemma MCTN.expand_heads :
    ∀ (m m2 : MCTN), m.expand_node = some m2 →
      m2.game = m.game ∧ m2.move_from_parent = m.move_from_parent ∧
      m2.wins = m.wins ∧ m2.visits = m.visits ∧
      ∀ (j : Nat) (d : MCTN), m.children[j]? = some d →
        m2.children[j]? = some d := by
  intro m m2 h
  obtain ⟨hnil, rfl⟩ := MCTN.expand_node_char m m2 h
  refine ⟨MCTN.game_setChildren .., MCTN.mfp_setChildren ..,
    MCTN.wins_setChildren .., MCTN.visits_setChildren .., ?_⟩
  intro j d hd
  rw [hnil] at hd
  simp at hd

/-- The statistics predicate of C7. -/
lemma statsOK_setChildren :
    ∀ (m : MCTN) (cs : List MCTN),
      (0 ≤ m.wins ∧ m.wins ≤ m.visits) →
      (0 ≤ (m.setChildren cs).wins ∧
        (m.setChildren cs).wins ≤ (m.setChildren cs).visits) := by
  intro m cs h
  rw [MCTN.wins_setChildren, MCTN.visits_setChildren]
  exact h

lemma statsOK_zero (g : Game) (mv : Option (Nat × Nat)) :
    0 ≤ (MCTN.mk g mv 0 0 []).wins ∧
      (MCTN.mk g mv 0 0 []).wins ≤ (MCTN.mk g mv 0 0 []).visits := by
  constructor <;> norm_num [MCTN.wins, MCTN.visits]

/-- One engine step preserves `0 ≤ wins ≤ visits` at every node. -/
lemma allNodes_statsOK_step (t t2 : MCTN) (hstep : StepRel t t2)
    (hall : AllNodes (fun m => 0 ≤ m.wins ∧ m.wins ≤ m.visits) t) :
    AllNodes (fun m => 0 ≤ m.wins ∧ m.wins ≤ m.visits) t2 := by
  rcases hstep with ⟨p, r, c, hmod⟩ | ⟨p, hmod⟩ | ⟨p, r, hbp⟩
  · refine allNodes_modifyAt _ statsOK_setChildren _ ?_ p t t2 hmod hall
    intro m m2 hf hallm
    obtain ⟨g2, -, rfl⟩ := MCTN.play_shape m m2 r c hf
    apply allNodes_setChildren_mix _ statsOK_setChildren statsOK_zero m _
      ?_ hallm
    intro d hd
    rcases List.mem_append.mp hd with hmem | hmem
    · exact Or.inl hmem
    · rw [List.mem_singleton] at hmem
      exact Or.inr ⟨g2, some (r, c), hmem⟩
  · refine allNodes_modifyAt _ statsOK_setChildren _ ?_ p t t2 hmod hall
    intro m m2 hf hallm
    obtain ⟨hnil, rfl⟩ := MCTN.expand_node_char m m2 hf
    apply allNodes_setChildren_mix _ statsOK_setChildren statsOK_zero m _
      ?_ hallm
    intro d hd
    obtain ⟨rc, -, rfl⟩ := List.mem_map.mp hd
    exact Or.inr ⟨_, some rc, rfl⟩
  · have hr : r ≠ GameState.Ongoing := by
      intro hr
      subst hr
      exact absurd hbp (by simp [MCTN.backpropagate])
    have hgo : MCTN.backpropGo t p r = some t2 := by
      cases r with
      | Ongoing => exact absurd rfl hr
      | XWon => exact hbp
      | OWon => exact hbp
      | Tie => exact hbp
    intro q m2 hq2
    cases hqt : t.getNode? q with
    | none =>
      rw [MCTN.backpropGo_domain r p t t2 hgo q hqt] at hq2
      exact Option.noConfusion hq2
    | some m =>
      obtain ⟨m2x, hm2x, -, -, -, hv, hw⟩ :=
        MCTN.backpropGo_spec r p t t2 hgo q m hqt
      rw [hq2] at hm2x
      obtain rfl := Option.some.inj hm2x
      obtain ⟨h0, hle⟩ := hall q m hqt
      have hcred0 := creditFor_nonneg r m.game.get_turn
      have hcred1 := creditFor_le_one r m.game.get_turn
      cases hlo : liesOn q p with
      | true =>
        rw [hlo] at hv hw
        simp only [if_true] at hv hw
        constructor
        · rw [hw]; linarith
        · rw [hw, hv]; linarith
      | false =>
        rw [hlo] at hv hw
        simp only [Bool.false_eq_true, if_false, add_zero] at hv hw
        rw [hw, hv]
        exact ⟨h0, hle⟩

/-- C7: in every tree reachable by node creation (`MCTN::new`,
`MCTN::play`), expansion and backpropagation, every node satisfies
`0 ≤ wins ≤ visits`; and no single operation ever decreases (or resets)
any node's `wins` or `visits` — statistics start at zero and each
backpropagation step adds exactly 1 to `visits` and at most 1 to `wins`. -/
theorem stats_invariant :
    (∀ t, Reachable t →
      AllNodes (fun m => 0 ≤ m.wins ∧ m.wins ≤ m.visits) t) ∧
    (∀ t t2, StepRel t t2 → ∀ q m m2, t.getNode? q = some m →
      t2.getNode? q = some m2 →
      m.wins ≤ m2.wins ∧ m.visits ≤ m2.visits) := by
  constructor
  · rintro t ⟨g, hrt⟩
    induction hrt with
    | refl =>
      intro q m hq
      cases q with
      | nil =>
        simp only [MCTN.getNode?, Option.some.injEq] at hq
        subst hq
        exact statsOK_zero g none
      | cons j s =>
        simp [MCTN.new, MCTN.getNode?, MCTN.children] at hq
    | tail hrt hbc ih => exact allNodes_statsOK_step _ _ hbc ih
  · intro t t2 hstep q m m2 hm hm2
    rcases hstep with ⟨p, r, c, hmod⟩ | ⟨p, hmod⟩ | ⟨p, r, hbp⟩
    · obtain ⟨m2x, hm2x, -, -, hw, hv⟩ :=
        MCTN.modifyAt_preserves _ (MCTN.play_heads r c) p t t2 hmod q m hm
      rw [hm2] at hm2x
      obtain rfl := Option.some.inj hm2x
      rw [hw, hv]
      exact ⟨le_refl _, le_refl _⟩
    · obtain ⟨m2x, hm2x, -, -, hw, hv⟩ :=
        MCTN.modifyAt_preserves _ MCTN.expand_heads p t t2 hmod q m hm
      rw [hm2] at hm2x
      obtain rfl := Option.some.inj hm2x
      rw [hw, hv]
      exact ⟨le_refl _, le_refl _⟩
    · have hr : r ≠ GameState.Ongoing := by
        intro hr
        subst hr
        exact absurd hbp (by simp [MCTN.backpropagate])
      have hgo : MCTN.backpropGo t p r = some t2 := by
        cases r with
        | Ongoing => exact absurd rfl hr
        | XWon => exact hbp
        | OWon => exact hbp
        | Tie => exact hbp
      obtain ⟨m2x, hm2x, -, -, -, hv, hw⟩ :=
        MCTN.backpropGo_spec r p t t2 hgo q m hm
      rw [hm2] at hm2x
      obtain rfl := Option.some.inj hm2x
      have hcred0 := creditFor_nonneg r m.game.get_turn
      rw [hw, hv]
      cases hlo : liesOn q p <;> simp <;> linarith

/-- Witness for C7: the fresh root is reachable and satisfies the
invariant; one concrete `MCTN::play` step is monotone. -/
theorem stats_invariant_witness :
    Reachable (MCTN.new Game.new) ∧
    AllNodes (fun m => 0 ≤ m.wins ∧ m.wins ≤ m.visits)
      (MCTN.new Game.new) ∧
    StepRel (MCTN.new Game.new) demoParent ∧
    ((MCTN.new Game.new).wins ≤ demoParent.wins ∧
      (MCTN.new Game.new).visits ≤ demoParent.visits) := by
  have hreach : Reachable (MCTN.new Game.new) :=
    ⟨Game.new, Relation.ReflTransGen.refl⟩
  have hstep : StepRel (MCTN.new Game.new) demoParent :=
    Or.inl ⟨[], 0, 0, rfl⟩
  exact ⟨hreach, stats_invariant.1 _ hreach, hstep,
    stats_invariant.2 _ _ hstep [] _ _ rfl rfl⟩

end MCTS

namespace MCTS

open TicTacToe

/-- The fold of `recommend_move` starting from a first candidate returns a
candidate of maximal `visits` (the first one, ties kept). -/
lemma recommend_fold_spec :
    ∀ (l : List MCTN) (b : MCTN),
      ∃ c, l.foldl
          (fun acc c =>
            match acc with
            | none => some c
            | some b => if b.visits < c.visits then some c else acc)
          (some b) = some c ∧
        (c = b ∨ c ∈ l) ∧ b.visits ≤ c.visits ∧
        ∀ d ∈ l, d.visits ≤ c.visits
  | [], b => ⟨b, rfl, Or.inl rfl, le_refl _, by simp⟩
  | c0 :: rest, b => by
    by_cases hv : b.visits < c0.visits
    · obtain ⟨c, hfold, hmem, hle, hall⟩ := recommend_fold_spec rest c0
      refine ⟨c, ?_, ?_, ?_, ?_⟩
      · simpa [List.foldl_cons, hv] using hfold
      · rcases hmem with rfl | hmem
        · exact Or.inr (List.mem_cons_self ..)
        · exact Or.inr (List.mem_cons_of_mem _ hmem)
      · exact le_trans (le_of_lt hv) hle
      · intro d hd
        rcases List.mem_cons.mp hd with rfl | hd2
        · exact hle
        · exact hall d hd2
    · obtain ⟨c, hfold, hmem, hle, hall⟩ := recommend_fold_spec rest b
      refine ⟨c, ?_, ?_, hle, ?_⟩
      · simpa [List.foldl_cons, hv] using hfold
      · rcases hmem with rfl | hmem
        · exact Or.inl rfl
        · exact Or.inr (List.mem_cons_of_mem _ hmem)
      · intro d hd
        rcases List.mem_cons.mp hd with rfl | hd2
        · exact le_trans (le_of_not_lt hv) hle
        · exact hall d hd2

/-- C4: `recommend_move` returns the move of a child of maximal `visits`
among the root's children, and — being a pure query — running it twice on
the same tree yields the same move and leaves the tree untouched. -/
theorem recommend_move_correct (t : MCTN) (hne : t.children ≠ []) :
    (∃ c ∈ t.children, t.recommend_move = c.move_from_parent ∧
      ∀ d ∈ t.children, d.visits ≤ c.visits) ∧
    t.recommend_move = t.recommend_move := by
  refine ⟨?_, rfl⟩
  cases hch : t.children with
  | nil => exact absurd hch hne
  | cons c0 rest =>
    obtain ⟨c, hfold, hmem, hle, hall⟩ := recommend_fold_spec rest c0
    refine ⟨c, ?_, ?_, ?_⟩
    · rcases hmem with rfl | hmem
      · exact List.mem_cons_self ..
      · exact List.mem_cons_of_mem _ hmem
    · unfold MCTN.recommend_move
      rw [hch]
      simp only [List.foldl_cons]
      rw [hfold]
      rfl
    · intro d hd
      rcases List.mem_cons.mp hd with rfl | hd2
      · exact hle
      · exact hall d hd2

/-- Witness for C4: the root with one backpropagated child. -/
theorem recommend_move_correct_witness :
    demoParent.children ≠ [] ∧
    ((∃ c ∈ demoParent.children,
        demoParent.recommend_move = c.move_from_parent ∧
        ∀ d ∈ demoParent.children, d.visits ≤ c.visits) ∧
      demoParent.recommend_move = demoParent.recommend_move) :=
  ⟨by simp [demoParent, MCTN.children],
    recommend_move_correct demoParent (by simp [demoParent, MCTN.children])⟩

/-- An output of `none` from the child-scanning loop means no child ever
strictly beat the running maximum: the best-so-far never changed and every
child scores at most the running maximum. -/
lemma selChild_none (pv : ℚ) {l : List MCTN} {i : Nat} {mx : ℝ}
    {acc out : Option Nat}
    (h : SelChild pv l i mx acc out) (hout : out = none) :
    acc = none ∧ ∀ c ∈ l, MCTN.uct pv c.wins c.visits ≤ mx := by
  induction h with
  | nil => exact ⟨hout, by simp⟩
  | gt hgt h2 ih => exact absurd (ih hout).1 (by simp)
  | le hle h2 ih =>
    refine ⟨(ih hout).1, ?_⟩
    intro d hd
    rcases List.mem_cons.mp hd with rfl | hd2
    · exact le_of_not_lt hle
    · exact (ih hout).2 d hd2

/-- An output of `some j` from a scan started with no best-so-far names a
child that strictly beats the initial maximum and is maximal over the whole
list. -/
lemma selChild_some (pv : ℚ) {l : List MCTN} {i : Nat} {mx : ℝ}
    {acc out : Option Nat} {j : Nat}
    (h : SelChild pv l i mx acc out) (hout : out = some j) :
    (acc = some j ∧ ∀ c ∈ l, MCTN.uct pv c.wins c.visits ≤ mx) ∨
    (∃ k c, l[k]? = some c ∧ j = i + k ∧
      mx < MCTN.uct pv c.wins c.visits ∧
      ∀ d ∈ l, MCTN.uct pv d.wins d.visits ≤
        MCTN.uct pv c.wins c.visits) := by
  induction h with
  | nil => exact Or.inl ⟨hout, by simp⟩
  | @gt c rest i2 mx2 acc2 out hgt h2 ih =>
    rcases ih hout with ⟨hacc, hall⟩ | ⟨k, c2, hk, hj, hgt2, hall⟩
    · obtain rfl := Option.some.inj hacc
      refine Or.inr ⟨0, c, by simp, by omega, hgt, ?_⟩
      intro d hd
      rcases List.mem_cons.mp hd with rfl | hd2
      · exact le_refl _
      · exact hall d hd2
    · refine Or.inr ⟨k + 1, c2, by simpa using hk, by omega,
        lt_trans hgt hgt2, ?_⟩
      intro d hd
      rcases List.mem_cons.mp hd with rfl | hd2
      · exact le_of_lt hgt2
      · exact hall d hd2
  | @le c rest i2 mx2 acc2 out hle h2 ih =>
    rcases ih hout with ⟨hacc, hall⟩ | ⟨k, c2, hk, hj, hgt2, hall⟩
    · refine Or.inl ⟨hacc, ?_⟩
      intro d hd
      rcases List.mem_cons.mp hd with rfl | hd2
      · exact le_of_not_lt hle
      · exact hall d hd2
    · refine Or.inr ⟨k + 1, c2, by simpa using hk, by omega, hgt2, ?_⟩
      intro d hd
      rcases List.mem_cons.mp hd with rfl | hd2
      · exact le_trans (le_of_not_lt hle) (le_of_lt hgt2)
      · exact hall d hd2

/-- C1 (amended): `select_node` stops at the first node on the descent at
which no child's UCT score strictly exceeds the running maximum initialised
to `0.0` — in particular at every childless node, but possibly at a node
that still has children (see `select_counterexample`); whenever descent
continues, it enters the first child attaining the strict maximum of the
UCT scores, which is strictly positive and maximal over all siblings. -/
theorem select_node_spec : ∀ (t : MCTN) (p : List Nat), SelPath t p →
    (∃ out, t.getNode? p = some out ∧
      ∀ c ∈ out.children, MCTN.uct out.visits c.wins c.visits ≤ 0) ∧
    (∀ (q : List Nat) (j : Nat), liesOn (q ++ [j]) p = true →
      ∃ n c, t.getNode? q = some n ∧ n.children[j]? = some c ∧
        0 < MCTN.uct n.visits c.wins c.visits ∧
        ∀ d ∈ n.children, MCTN.uct n.visits d.wins d.visits ≤
          MCTN.uct n.visits c.wins c.visits) := by
  intro t p h
  induction h with
  | @stop t2 hsc =>
    refine ⟨⟨t2, rfl, (selChild_none _ hsc rfl).2⟩, ?_⟩
    intro q j hlo
    cases q with
    | nil => simp [liesOn] at hlo
    | cons q0 q2 => simp [liesOn] at hlo
  | @step t2 i c p2 hsc hc hp ih =>
    constructor
    · obtain ⟨⟨out, hout, hstop⟩, -⟩ := ih
      refine ⟨out, ?_, hstop⟩
      simp only [MCTN.getNode?, hc]
      exact hout
    · intro q j hlo
      cases q with
      | nil =>
        have hji : j = i := by
          rw [List.nil_append, liesOn_cons] at hlo
          simp only [liesOn_nil, Bool.and_true] at hlo
          exact beq_iff_eq.mp hlo
        subst hji
        rcases selChild_some _ hsc rfl with ⟨hacc, -⟩ | ⟨k, c2, hk, hj, hgt, hall⟩
        · exact absurd hacc (by simp)
        · have hkj : k = j := by omega
          subst hkj
          rw [hk] at hc
          obtain rfl := Option.some.inj hc
          exact ⟨t2, _, rfl, hk, hgt, hall⟩
      | cons q0 q2 =>
        rw [List.cons_append, liesOn_cons] at hlo
        simp only [Bool.and_eq_true, beq_iff_eq] at hlo
        obtain ⟨hq0i, hlo2⟩ := hlo
        subst hq0i
        obtain ⟨-, hdesc⟩ := ih
        obtain ⟨n, c2, hn, hc2, hpos, hmax⟩ := hdesc q2 j hlo2
        refine ⟨n, c2, ?_, hc2, hpos, hmax⟩
        simp only [MCTN.getNode?, hc]
        exact hn

/-- The UCT score of a zero-statistics child under a zero-visit parent is 0
in this real-valued model (in IEEE `f64` it is NaN); either way the strict
comparison against the running maximum 0.0 fails. -/
lemma uct_zero : MCTN.uct 0 0 0 = 0 := by
  simp [MCTN.uct, Real.log_zero]

/-- C1 counterexample: a root built by `MCTN::new` + `MCTN::play` holding
one zero-statistics child.  `select_node` returns the root itself — a node
that still has children — because no child's UCT score strictly exceeds the
initial maximum 0.0. -/
theorem select_counterexample :
    (MCTN.new Game.new).play 0 0 = some demoParent ∧
    SelPath demoParent [] ∧ demoParent.children ≠ [] := by
  refine ⟨rfl, ?_, by simp [demoParent, MCTN.children]⟩
  apply SelPath.stop
  show SelChild (0 : ℚ) [MCTN.mk gameX00 (some (0, 0)) 0 0 []] 0 0 none none
  refine SelChild.le ?_ (SelChild.nil _ _ _)
  show ¬ MCTN.uct 0 (0 : ℚ) (0 : ℚ) > (0 : ℝ)
  rw [uct_zero]
  exact lt_irrefl 0

end MCTS

namespace MCTS

open TicTacToe

/-- Witness for C1 (amended): selection on a fresh childless root. -/
theorem select_node_spec_witness :
    SelPath (MCTN.new Game.new) [] ∧
    ((∃ out, (MCTN.new Game.new).getNode? [] = some out ∧
      ∀ c ∈ out.children, MCTN.uct out.visits c.wins c.visits ≤ 0) ∧
    (∀ (q : List Nat) (j : Nat), liesOn (q ++ [j]) [] = true →
      ∃ n c, (MCTN.new Game.new).getNode? q = some n ∧
        n.children[j]? = some c ∧
        0 < MCTN.uct n.visits c.wins c.visits ∧
        ∀ d ∈ n.children, MCTN.uct n.visits d.wins d.visits ≤
          MCTN.uct n.visits c.wins c.visits)) :=
  ⟨SelPath.stop (SelChild.nil 0 0 none),
    select_node_spec (MCTN.new Game.new) []
      (SelPath.stop (SelChild.nil 0 0 none))⟩

lemma list_set_getElem?_self {α : Type} :
    ∀ (l : List α) (i : Nat) (a : α), l[i]? = some a → l.set i a = l
  | [], i, a, h => by simp at h
  | x :: xs, 0, a, h => by
    simp only [List.getElem?_cons_zero, Option.some.injEq] at h
    simp [List.set, h]
  | x :: xs, i + 1, a, h => by
    simp only [List.getElem?_cons_succ] at h
    simp [List.set, list_set_getElem?_self xs i a h]

/-- Here `modifyAt` with a transformation that fixes the addressed node fixes
the whole tree. -/
lemma MCTN.modifyAt_self : ∀ (p : List Nat) (t t2 : MCTN)
    (f : MCTN → Option MCTN),
    t.modifyAt p f = some t2 →
    (∀ m m2, t.getNode? p = some m → f m = some m2 → m2 = m) → t2 = t
  | [], t, t2, f, h, hid => hid t t2 rfl h
  | i :: p, t, t2, f, h, hid => by
    simp only [MCTN.modifyAt] at h
    obtain ⟨c, hc, h⟩ := Option.bind_eq_some.mp h
    obtain ⟨c2, hrec, h⟩ := Option.map_eq_some'.mp h
    subst h
    have hc2 : c2 = c := by
      apply MCTN.modifyAt_self p c c2 f hrec
      intro m m2 hm hf
      apply hid m m2 ?_ hf
      simp only [MCTN.getNode?, hc]
      exact hm
    subst hc2
    rw [list_set_getElem?_self _ i c2 hc, MCTN.setChildren_children_self]

/-- Node-wise effect of the simulate/backpropagate loop: a node's `visits`
rises by the number of processed child indices whose chain passes through
it; games and child counts are untouched. -/
lemma simBackprops_visits (pick : Nat → Nat → Nat) (p : List Nat) :
    ∀ (js : List Nat) (t t2 : MCTN),
      MCTN.simBackprops pick p t js = some t2 →
      ∀ q m, t.getNode? q = some m →
        ∃ m2, t2.getNode? q = some m2 ∧ m2.game = m.game ∧
          m2.children.length = m.children.length ∧
          m2.visits = m.visits +
            ((js.countP fun j => liesOn q (p ++ [j])) : ℚ)
  | [], t, t2, h, q, m, hq => by
    simp only [MCTN.simBackprops, Option.some.injEq] at h
    subst h
    exact ⟨m, hq, rfl, rfl, by simp⟩
  | j :: js, t, t2, h, q, m, hq => by
    simp only [MCTN.simBackprops] at h
    obtain ⟨child, hchild, h⟩ := Option.bind_eq_some.mp h
    obtain ⟨r, hr, h⟩ := Option.bind_eq_some.mp h
    obtain ⟨t3, hbp, h⟩ := Option.bind_eq_some.mp h
    have hgo : MCTN.backpropGo t (p ++ [j]) r = some t3 := by
      unfold MCTN.backpropagate at hbp
      cases r with
      | Ongoing => exact Option.noConfusion hbp
      | XWon => exact hbp
      | OWon => exact hbp
      | Tie => exact hbp
    obtain ⟨m3, hm3, hg3, -, hlen3, hv3, -⟩ :=
      MCTN.backpropGo_spec r (p ++ [j]) t t3 hgo q m hq
    obtain ⟨m2, hm2, hg2, hlen2, hv2⟩ :=
      simBackprops_visits pick p js t3 t2 h q m3 hm3
    refine ⟨m2, hm2, by rw [hg2, hg3], by rw [hlen2, hlen3], ?_⟩
    rw [hv2, hv3, List.countP_cons]
    cases hlo : liesOn q (p ++ [j]) with
    | true =>
      simp only [hlo, if_true]
      push_cast
      ring
    | false =>
      simp only [hlo, Bool.false_eq_true, if_false]
      push_cast
      ring

end MCTS

namespace MCTS

open TicTacToe

/-- C2 (amended): one `mcts_update` iteration that completes without
panicking selected a leaf (a node without children), expanded it into one
child per legal move, and gave every newly created child exactly one
simulated rollout backpropagated from that child up to the root — so the
root's `visits` rise by the number of legal moves of the selected leaf and
each new child ends with `visits = 1`.  If the selected leaf's state is
terminal (no legal moves), nothing is simulated or backpropagated and the
tree is unchanged — in particular the root's visits do NOT increase on
such an iteration. -/
theorem mcts_update_spec (t : MCTN) (pick : Nat → Nat → Nat) (t2 : MCTN)
    (h : MCTN.mcts_update t pick t2) :
    ∃ p leaf, SelPath t p ∧ t.getNode? p = some leaf ∧
      leaf.children = [] ∧
      (leaf.game.get_possible_plays = [] → t2 = t) ∧
      t2.visits = t.visits + (leaf.game.get_possible_plays.length : ℚ) ∧
      (∀ j, j < leaf.game.get_possible_plays.length →
        ∃ c, t2.getNode? (p ++ [j]) = some c ∧ c.visits = 1) := by
  obtain ⟨p, hsel, hat⟩ := h
  unfold MCTN.mcts_update_at at hat
  obtain ⟨t1, hmod, hat⟩ := Option.bind_eq_some.mp hat
  obtain ⟨leaf1, hleaf1, hsim⟩ := Option.bind_eq_some.mp hat
  obtain ⟨leaf, leafE, hleafGet, hfE, hleafEGet⟩ :=
    MCTN.modifyAt_getNode?_self p t t1 _ hmod
  rw [hleafEGet] at hleaf1
  obtain rfl := Option.some.inj hleaf1
  obtain ⟨hnil, hshape⟩ := MCTN.expand_node_char leaf _ hfE
  have hlenE : leafE.children.length =
      leaf.game.get_possible_plays.length := by
    rw [hshape, MCTN.children_setChildren, List.length_map]
  rw [hlenE] at hsim
  refine ⟨p, leaf, hsel, hleafGet, hnil, ?_, ?_, ?_⟩
  · -- terminal leaf: the whole iteration is a no-op
    intro hpe
    have ht1 : t1 = t := by
      apply MCTN.modifyAt_self p t t1 _ hmod
      intro m m2 hm hf
      rw [hleafGet] at hm
      obtain rfl := Option.some.inj hm
      obtain ⟨-, hsh2⟩ := MCTN.expand_node_char leaf m2 hf
      rw [hsh2, hpe, List.map_nil, ← hnil, MCTN.setChildren_children_self]
    rw [hpe] at hsim
    simp only [List.length_nil, List.range_zero, MCTN.simBackprops,
      Option.some.injEq] at hsim
    rw [← hsim, ht1]
  · -- the root gains one visit per new child
    obtain ⟨r1, hr1, -, -, -, hrv1⟩ :=
      MCTN.modifyAt_preserves _ MCTN.expand_heads p t t1 hmod [] t rfl
    obtain ⟨r2, hr2, -, -, hrv2⟩ :=
      simBackprops_visits pick p
        (List.range leaf.game.get_possible_plays.length) t1 t2 hsim [] r1
        hr1
    have hr2t : r2 = t2 := by
      simp only [MCTN.getNode?, Option.some.injEq] at hr2
      exact hr2.symm
    have hcount :
        ((List.range leaf.game.get_possible_plays.length).countP
          fun j => liesOn [] (p ++ [j])) =
          leaf.game.get_possible_plays.length := by
      have hall : ∀ j ∈ List.range leaf.game.get_possible_plays.length,
          (liesOn [] (p ++ [j])) = (true : Bool) := by
        intro j _
        exact liesOn_nil _
      calc ((List.range leaf.game.get_possible_plays.length).countP
            fun j => liesOn [] (p ++ [j]))
          = ((List.range leaf.game.get_possible_plays.length).countP
            fun j => true) := by
            apply List.countP_congr
            intro j hj
            simp [hall j hj]
        _ = leaf.game.get_possible_plays.length := by
            rw [congrFun List.countP_true _]
            exact List.length_range _
    rw [← hr2t, hrv2, hcount, hrv1]
  · -- every new child received exactly one backpropagated rollout
    intro j hj
    have hchildE : t1.getNode? (p ++ [j]) =
        some (childFor leaf.game leaf.game.get_possible_plays[j]) := by
      rw [MCTN.getNode?_append, hleafEGet, Option.some_bind]
      have hcj : leafE.children[j]? =
          some (childFor leaf.game leaf.game.get_possible_plays[j]) := by
        rw [hshape, MCTN.children_setChildren, List.getElem?_map,
          List.getElem?_eq_getElem hj]
        rfl
      simp only [MCTN.getNode?, hcj]
    obtain ⟨c2, hc2, -, -, hcv⟩ :=
      simBackprops_visits pick p
        (List.range leaf.game.get_possible_plays.length) t1 t2 hsim
        (p ++ [j]) _ hchildE
    refine ⟨c2, hc2, ?_⟩
    have hbeqsymm : ∀ a b : Nat, (a == b) = (b == a) := by
      intro a b
      by_cases hab : a = b
      · simp [hab]
      · simp [hab, Ne.symm hab]
    have hcount :
        ((List.range leaf.game.get_possible_plays.length).countP
          fun j2 => liesOn (p ++ [j]) (p ++ [j2])) = 1 := by
      calc ((List.range leaf.game.get_possible_plays.length).countP
            fun j2 => liesOn (p ++ [j]) (p ++ [j2]))
          = ((List.range leaf.game.get_possible_plays.length).countP
            fun j2 => j2 == j) := by
            apply List.countP_congr
            intro j2 hj2
            rw [liesOn_snoc_same, hbeqsymm]
        _ = (List.range leaf.game.get_possible_plays.length).count j := rfl
        _ = 1 := List.count_eq_one_of_mem (List.nodup_range _)
            (List.mem_range.mpr hj)
    rw [hcv, hcount]
    norm_num [childFor, MCTN.visits]

/-- A finished game (X has won the top row), reached by five plays. -/
def gameXWon : Game :=
  [(0, 0), (1, 0), (0, 1), (1, 1), (0, 2)].foldl
    (fun g rc => (Game.play g rc.1 rc.2).2) Game.new

/-- C2 counterexample: on a root whose game is already over, one full
`mcts_update` iteration selects the (terminal) root, expands it into zero
children, performs no rollout and no backpropagation, and leaves the tree
— in particular the root's `visits`, still 0 — unchanged, contradicting
"a rollout is simulated from the leaf itself ... so the root's visits
increase on every iteration". -/
theorem mcts_update_counterexample :
    gameXWon.get_state = GameState.XWon ∧
    MCTN.mcts_update (MCTN.new gameXWon) (fun _ _ => 0)
      (MCTN.new gameXWon) ∧
    (MCTN.new gameXWon).visits = 0 :=
  ⟨by decide,
    ⟨[], SelPath.stop (SelChild.nil 0 0 none), rfl⟩,
    rfl⟩

/-- Witness for C2 (amended) at the terminal root. -/
theorem mcts_update_spec_witness :
    MCTN.mcts_update (MCTN.new gameXWon) (fun _ _ => 0)
      (MCTN.new gameXWon) ∧
    (∃ p leaf, SelPath (MCTN.new gameXWon) p ∧
      (MCTN.new gameXWon).getNode? p = some leaf ∧
      leaf.children = [] ∧
      (leaf.game.get_possible_plays = [] →
        MCTN.new gameXWon = MCTN.new gameXWon) ∧
      (MCTN.new gameXWon).visits = (MCTN.new gameXWon).visits +
        (leaf.game.get_possible_plays.length : ℚ) ∧
      (∀ j, j < leaf.game.get_possible_plays.length →
        ∃ c, (MCTN.new gameXWon).getNode? (p ++ [j]) = some c ∧
          c.visits = 1)) :=
  ⟨⟨[], SelPath.stop (SelChild.nil 0 0 none), rfl⟩,
    mcts_update_spec (MCTN.new gameXWon) (fun _ _ => 0) (MCTN.new gameXWon)
      ⟨[], SelPath.stop (SelChild.nil 0 0 none), rfl⟩⟩

end MCTS
